import Mathlib

/-!
Verification of the failure-scenario instance-preparation scripts
(`balanced_failure_scenarios.py`, `updated_failure_scenarios.py`,
`visualize_with_depot_placement.py`).

The Python sources are shallowly embedded: each Python function becomes an
executable Lean definition over `List Char` strings, rational edge weights
(Python floats carry decimal literals here), and explicit state passing.
Fallible Python code (exceptions) is modelled with `Option`/`Except`.
-/

namespace RPP

/-- Python strings are modelled as lists of characters. -/
abbrev PyStr := List Char

/-- Whitespace test used by Python `str.strip()`. -/
def isWS (c : Char) : Bool :=
  c = ' ' ∨ c = '\t' ∨ c = '\n' ∨ c = '\r'

/-- `pfx p t` models Python `t.startswith(p)`. -/
def pfx : PyStr → PyStr → Bool
  | [], _ => true
  | _ :: _, [] => false
  | a :: as, b :: bs => a = b && pfx as bs

/-- Drop leading whitespace. -/
def trimL (l : PyStr) : PyStr := l.dropWhile isWS

/-- Drop trailing whitespace. -/
def trimR (l : PyStr) : PyStr := (trimL l.reverse).reverse

/-- `trimChars` models Python `str.strip()`. -/
def trimChars (l : PyStr) : PyStr := trimL (trimR l)

/-- `endsColon l` models Python `l.endswith(":")`. -/
def endsColon (l : PyStr) : Bool :=
  match l.reverse with
  | ':' :: _ => true
  | _ => false

/-- `splitChar sep l` models Python `l.split(sep)` for a single-character
separator: always returns at least one (possibly empty) part. -/
def splitChar (sep : Char) : PyStr → List PyStr
  | [] => [[]]
  | c :: rest =>
    match splitChar sep rest with
    | [] => [[]]
    | h :: t => if c = sep then [] :: h :: t else (c :: h) :: t

/-- `splitCharOnce sep l` models Python `l.split(sep, 1)` restricted to the
case where the separator occurs: `some (before, after)` at the first
occurrence, `none` when the separator is absent. -/
def splitCharOnce (sep : Char) : PyStr → Option (PyStr × PyStr)
  | [] => none
  | c :: rest =>
    if c = sep then some ([], rest)
    else (splitCharOnce sep rest).map (fun p => (c :: p.1, p.2))

/-- Auxiliary fuelled scanner for multi-character separators. -/
def splitSeqAux (sep : PyStr) : Nat → PyStr → PyStr → List PyStr
  | 0, acc, l => [acc.reverse ++ l]
  | _ + 1, acc, [] => [acc.reverse]
  | f + 1, acc, c :: rest =>
    if pfx sep (c :: rest) then
      acc.reverse :: splitSeqAux sep f [] (List.drop sep.length (c :: rest))
    else
      splitSeqAux sep f (c :: acc) rest

/-- `splitSeq sep l` models Python `l.split(sep)` for a nonempty
multi-character separator. -/
def splitSeq (sep : PyStr) (l : PyStr) : List PyStr :=
  splitSeqAux sep l.length [] l

/-- `containsSeq sep l` models Python `sep in l` for a nonempty separator:
the split has more than one part exactly when the separator occurs. -/
def containsSeq (sep : PyStr) (l : PyStr) : Bool :=
  (splitSeq sep l).length != 1

/-- Auxiliary fuelled scanner for `splitSeqOnce`. -/
def splitSeqOnceAux (sep : PyStr) : Nat → PyStr → Option (PyStr × PyStr)
  | _, [] => none
  | 0, _ => none
  | f + 1, c :: rest =>
    if pfx sep (c :: rest) then some ([], List.drop sep.length (c :: rest))
    else (splitSeqOnceAux sep f rest).map (fun p => (c :: p.1, p.2))

/-- `splitSeqOnce sep l` models Python `l.split(sep, 1)` for a nonempty
separator, returning `some (before, after)` at the first occurrence and
`none` when the separator does not occur. -/
def splitSeqOnce (sep : PyStr) (l : PyStr) : Option (PyStr × PyStr) :=
  splitSeqOnceAux sep l.length l

/-- `myIntercalate sep parts` models Python `sep.join(parts)`. -/
def myIntercalate (sep : PyStr) : List PyStr → PyStr
  | [] => []
  | [x] => x
  | x :: y :: rest => x ++ sep ++ myIntercalate sep (y :: rest)

/-! ### Decimal numerals -/

/-- Value of a decimal digit character. -/
def digitVal (c : Char) : Nat := c.toNat - 48

/-- Numeric value of a nonempty all-digit string. -/
def digitsVal (l : PyStr) : Option Nat :=
  if l ≠ [] ∧ l.all Char.isDigit then
    some (l.foldl (fun acc c => acc * 10 + digitVal c) 0)
  else none

/-- `pyParseInt` models Python `int(str)` on decimal literals: surrounding
whitespace and an optional sign are allowed. -/
def pyParseInt (l : PyStr) : Option Int :=
  match trimChars l with
  | [] => none
  | c :: rest =>
    if c = '-' then (digitsVal rest).map (fun n => -(n : Int))
    else if c = '+' then (digitsVal rest).map (fun n => (n : Int))
    else (digitsVal (c :: rest)).map (fun n => (n : Int))

/-- Fractional-part value: digits `b₁…bₖ` denote `0.b₁…bₖ` as a rational. -/
def fracVal (l : PyStr) : ℚ :=
  (l.foldl (fun acc c => acc * 10 + digitVal c) 0 : ℚ) / (10 : ℚ) ^ l.length

/-- Unsigned decimal: `digits`, `digits.`, `.digits` or `digits.digits`. -/
def parseUnsignedDec (l : PyStr) : Option ℚ :=
  match splitChar '.' l with
  | [a] => (digitsVal a).map (fun n => (n : ℚ))
  | [a, b] =>
    if (a ≠ [] ∨ b ≠ []) ∧ a.all Char.isDigit ∧ b.all Char.isDigit then
      some (((a.foldl (fun acc c => acc * 10 + digitVal c) 0 : Nat) : ℚ) + fracVal b)
    else none
  | _ => none

/-- `pyParseFloat` models Python `float(str)` on plain decimal literals
(optional sign, optional fractional part; scientific notation and the
special values are outside the fragment the instance files use). -/
def pyParseFloat (l : PyStr) : Option ℚ :=
  match trimChars l with
  | [] => none
  | c :: rest =>
    if c = '-' then (parseUnsignedDec rest).map (fun q => -q)
    else if c = '+' then parseUnsignedDec rest
    else parseUnsignedDec (c :: rest)

/-- The decimal digit characters, by value. -/
def digitChar (d : Nat) : Char :=
  match d with
  | 0 => '0' | 1 => '1' | 2 => '2' | 3 => '3' | 4 => '4'
  | 5 => '5' | 6 => '6' | 7 => '7' | 8 => '8' | _ => '9'

/-- Fuelled decimal rendering of a natural number (fuel keeps the
definition structurally recursive, hence kernel-evaluable). -/
def natReprAux : Nat → Nat → PyStr
  | 0, _ => []
  | fuel + 1, n =>
    if n < 10 then [digitChar n]
    else natReprAux fuel (n / 10) ++ [digitChar (n % 10)]

/-- `natRepr n` models Python `str(n)` for a natural number. -/
def natRepr (n : Nat) : PyStr := natReprAux (n + 1) n

/-- `intRepr i` models Python `str(i)` for an integer. -/
def intRepr (i : Int) : PyStr :=
  if i < 0 then '-' :: natRepr i.natAbs else natRepr i.toNat

/-! ### Weight extraction (`extract_weight`, three copies in the sources) -/

def kwEdgeWeight : PyStr := "edge weight".data

def kwCost : PyStr := "cost".data

/-- `float(weight_str)` with the surrounding `try/except` returning `1.0`. -/
def floatOr1 (s : PyStr) : ℚ := (pyParseFloat s).getD 1

/-- `extract_weight` from `balanced_failure_scenarios.py`.  The Boolean
records whether the branch printing the missing-weight warning ran. -/
def extract_weight_balanced (text : PyStr) : ℚ × Bool :=
  if containsSeq kwEdgeWeight text then
    (floatOr1 (trimChars ((splitSeq kwEdgeWeight text).getD 1 [])), false)
  else if containsSeq kwCost text then
    (floatOr1 (trimChars ((splitSeq kwCost text).getD 1 [])), false)
  else
    (floatOr1 ("1.0".data), true)

/-- `extract_weight` from `visualize_with_depot_placement.py`: identical to
the balanced version except that no warning is printed. -/
def extract_weight_visualize (text : PyStr) : ℚ × Bool :=
  if containsSeq kwEdgeWeight text then
    (floatOr1 (trimChars ((splitSeq kwEdgeWeight text).getD 1 [])), false)
  else if containsSeq kwCost text then
    (floatOr1 (trimChars ((splitSeq kwCost text).getD 1 [])), false)
  else
    (floatOr1 ("1.0".data), false)

/-- `extract_weight` from `updated_failure_scenarios.py`: strips the text,
splits with `maxsplit=1`, returns `1.0` silently when no token occurs. -/
def extract_weight_updated (text0 : PyStr) : ℚ × Bool :=
  let text := trimChars text0
  if containsSeq kwEdgeWeight text then
    (floatOr1 (trimChars (((splitSeqOnce kwEdgeWeight text).map Prod.snd).getD [])), false)
  else if containsSeq kwCost text then
    (floatOr1 (trimChars (((splitSeqOnce kwCost text).map Prod.snd).getD [])), false)
  else
    (1, false)

/-! ### The scenario parser (`parse_text_file`, identical in all three sources
up to the `extract_weight` copy used; the balanced copy is used here) -/

def kwNAME : PyStr := "NAME".data

def kwNumVertices : PyStr := "NUMBER OF VERTICES".data

def kwCapacity : PyStr := "VEHICLE CAPACITY".data

def kwListReq : PyStr := "LIST_REQUIRED_EDGES:".data

def kwListNonReq : PyStr := "LIST_NON_REQUIRED_EDGES:".data

def kwFailure : PyStr := "FAILURE_SCENARIO:".data

def kwDepot : PyStr := "DEPOT:".data

def kwNumVehicles : PyStr := "NUMBER OF VEHICLES".data

def kwNumReqEdges : PyStr := "NUMBER OF REQUIRED_EDGES:".data

def kwNumNonReqEdges : PyStr := "NUMBER OF NON_REQUIRED_EDGES:".data

deriving instance DecidableEq for Except

/-- One undirected edge record of the `networkx` graph: endpoints plus the
`weight` and `required` attributes. -/
structure Edge where
  u : Int
  v : Int
  weight : ℚ
  required : Bool
deriving DecidableEq

/-- The `networkx` graph: nodes in insertion order (no duplicates are ever
inserted) and the edge-attribute records in insertion order. -/
structure Graph where
  nodesList : List Int
  edges : List Edge
deriving DecidableEq

def emptyGraph : Graph := ⟨[], []⟩

/-- `networkx` node insertion: appended only when absent. -/
def addNode (G : Graph) (x : Int) : Graph :=
  if x ∈ G.nodesList then G else { G with nodesList := G.nodesList ++ [x] }

/-- Python `range(1, n + 1)` as integers. -/
def intRange (n : Int) : List Int := (List.range n.toNat).map (fun i => (i : Int) + 1)

/-- `G.add_nodes_from(range(1, num_vertices + 1))`. -/
def addNodesRange (G : Graph) (n : Int) : Graph := (intRange n).foldl addNode G

/-- Whether an edge record joins the (unordered) endpoints `u, v`. -/
def sameEnds (e : Edge) (u v : Int) : Bool :=
  (e.u == u && e.v == v) || (e.u == v && e.v == u)

/-- `G.add_edge(u, v, weight=w, required=req)`: endpoints are inserted as
nodes when absent and an existing record between the same endpoints has its
attributes overwritten. -/
def addEdge (G : Graph) (u v : Int) (w : ℚ) (req : Bool) : Graph :=
  let G1 := addNode (addNode G u) v
  if G1.edges.any (fun e => sameEnds e u v) then
    { G1 with
      edges := G1.edges.map
        (fun e => if sameEnds e u v then { e with weight := w, required := req } else e) }
  else
    { G1 with edges := G1.edges ++ [⟨u, v, w, req⟩] }

/-- `line.split(':')[1]`, `none` modelling the `IndexError`. -/
def colon1 (t : PyStr) : Option PyStr := (splitChar ':' t)[1]?

/-- `u_v.strip('(')`: parentheses stripped from both ends. -/
def stripParens (l : PyStr) : PyStr :=
  ((l.dropWhile (fun c => c = '(')).reverse.dropWhile (fun c => c = '(')).reverse

/-- `u, v = map(int, u_v.strip('(').split(','))`: the endpoint part of an
edge line; `none` models the `ValueError` of a failed unpack or `int`. -/
def parseEdgeUV (uvRaw : PyStr) : Option (Int × Int) :=
  match splitChar ',' (stripParens uvRaw) with
  | [a, b] =>
    match pyParseInt a, pyParseInt b with
    | some u, some v => some (u, v)
    | _, _ => none
  | _ => none

/-- The body of the edge-line branch of `parse_text_file`: split on `') '`,
strip parentheses, read the two endpoints, extract the weight; `none`
models the `ValueError` of a failed split or unpack. -/
def parseEdgeLine (t : PyStr) : Option (Int × Int × ℚ) :=
  match splitSeqOnce (") ".data) t with
  | none => none
  | some (uv, rest) =>
    match parseEdgeUV uv with
    | none => none
    | some (u, v) => some (u, v, (extract_weight_balanced rest).1)

/-- The section the line loop of `parse_text_file` is inside. -/
inductive SecTag
  | required
  | nonrequired
  | failure
deriving DecidableEq

/-- The ways `parse_text_file` can raise. -/
inductive ParseErr
  | capacityMissing
  | badVertexCount
  | badCapacity
  | badDepotList
  | badEdgeLine
deriving DecidableEq

/-- The loop state of `parse_text_file`. -/
structure ParseState where
  graph : Graph
  depots : List Int
  battery : Option ℚ
  sec : Option SecTag
deriving DecidableEq

def initState : ParseState := ⟨emptyGraph, [], none, none⟩

/-- What a single line makes `parse_text_file` do; determined by the line
text and the current section alone. -/
inductive LineAct
  | skip
  | addNodes (n : Int)
  | setCap (q : ℚ)
  | setSec (t : SecTag)
  | setDepots (ds : List Int)
  | addE (u v : Int) (w : ℚ) (req : Bool)
  | fail (e : ParseErr)
deriving DecidableEq

/-- The `DEPOT:` branch: `[int(x.strip()) for x in line.split(':', 1)[1].strip().split(',')]`. -/
def parseDepotList (t : PyStr) : Option (List Int) :=
  match splitCharOnce ':' t with
  | none => none
  | some (_, rest) =>
    (splitChar ',' (trimChars rest)).mapM (fun x => pyParseInt (trimChars x))

/-- The `if/elif` dispatch of the line loop of `parse_text_file`, on the
already-stripped line `t`. -/
def classifyT (sec : Option SecTag) (t : PyStr) : LineAct :=
  if t = [] then .skip
  else if pfx kwNAME t then .skip
  else if pfx kwNumVertices t then
    match colon1 t with
    | none => .fail .badVertexCount
    | some f =>
      match pyParseInt (trimChars f) with
      | none => .fail .badVertexCount
      | some n => .addNodes n
  else if pfx kwCapacity t then
    match colon1 t with
    | none => .fail .badCapacity
    | some f =>
      match pyParseFloat (trimChars f) with
      | none => .fail .badCapacity
      | some q => .setCap q
  else if pfx kwListReq t then .setSec .required
  else if pfx kwListNonReq t then .setSec .nonrequired
  else if pfx kwFailure t then .setSec .failure
  else if pfx kwDepot t then
    match parseDepotList t with
    | none => .fail .badDepotList
    | some ds => .setDepots ds
  else if sec = some .required ∨ sec = some .nonrequired then
    match parseEdgeLine t with
    | none => .fail .badEdgeLine
    | some (u, v, w) => .addE u v w (decide (sec = some .required))
  else .skip

/-- The `if/elif` dispatch of the line loop of `parse_text_file`: the line
is stripped first (`line = line.strip()`). -/
def classify (sec : Option SecTag) (line : PyStr) : LineAct :=
  classifyT sec (trimChars line)

/-- Apply a line's action to the loop state. -/
def applyAct (s : ParseState) : LineAct → Except ParseErr ParseState
  | .skip => .ok s
  | .addNodes n => .ok { s with graph := addNodesRange s.graph n }
  | .setCap q => .ok { s with battery := some q }
  | .setSec t => .ok { s with sec := some t }
  | .setDepots ds => .ok { s with depots := ds }
  | .addE u v w req => .ok { s with graph := addEdge s.graph u v w req }
  | .fail e => .error e

/-- One iteration of the line loop of `parse_text_file`. -/
def parseLine (s : ParseState) (line : PyStr) : Except ParseErr ParseState :=
  applyAct s (classify s.sec line)

/-- The whole line loop of `parse_text_file`. -/
def parseLines : ParseState → List PyStr → Except ParseErr ParseState
  | s, [] => .ok s
  | s, l :: rest =>
    match parseLine s l with
    | .ok s2 => parseLines s2 rest
    | .error e => .error e

/-- `parse_text_file` over the lines of a file: the line loop followed by
the mandatory-capacity check. -/
def parse_text_file (lines : List PyStr) : Except ParseErr (Graph × List Int × ℚ) :=
  match parseLines initState lines with
  | .error e => .error e
  | .ok s =>
    match s.battery with
    | none => .error .capacityMissing
    | some c => .ok (s.graph, s.depots, c)

/-- Error projection of `parse_text_file`, for concrete evaluation. -/
def parseErr (lines : List PyStr) : Option ParseErr :=
  match parse_text_file lines with
  | .error e => some e
  | .ok _ => none

/-- Success projection of `parse_text_file`, for concrete evaluation. -/
def parseOk (lines : List PyStr) : Option (Graph × List Int × ℚ) :=
  (parse_text_file lines).toOption

/-- A line whose stripped text starts with `VEHICLE CAPACITY`. -/
def isCapacityLine (l : PyStr) : Bool := pfx kwCapacity (trimChars l)

/-- The capacity value a `VEHICLE CAPACITY` line carries. -/
def capValue (l : PyStr) : Option ℚ :=
  match colon1 (trimChars l) with
  | none => none
  | some f => pyParseFloat (trimChars f)

/-- `goodEnds N u v`: distinct endpoints, both within `1..N` — the
data-model invariant of claim C9 for one edge. -/
abbrev goodEnds (N u v : Int) : Prop :=
  u ≠ v ∧ 1 ≤ u ∧ u ≤ N ∧ 1 ≤ v ∧ v ≤ N

/-- A line that, were it reached in an edge section, would contribute an
edge with distinct endpoints inside `1..N`. -/
def edgeLineGood (N : Int) (l : PyStr) : Prop :=
  ∀ u v w, parseEdgeLine (trimChars l) = some (u, v, w) → goodEnds N u v

instance (N : Int) (l : PyStr) : Decidable (edgeLineGood N l) :=
  match h : parseEdgeLine (trimChars l) with
  | none =>
    isTrue (fun u v w hh => by rw [h] at hh; cases hh)
  | some (u, v, w) =>
    decidable_of_iff (goodEnds N u v)
      ⟨fun hg u2 v2 w2 hh => by
          rw [h, Option.some.injEq, Prod.mk.injEq, Prod.mk.injEq] at hh
          obtain ⟨h1, h2, _⟩ := hh
          rw [← h1, ← h2]
          exact hg,
        fun ha => ha u v w h⟩

/-- Concrete input for claim C6: the capacity field is present, yet the
parse still fails (on the malformed edge line), so no triple is returned. -/
def linesC6 : List PyStr :=
  [("VEHICLE CAPACITY: 5".data), ("LIST_REQUIRED_EDGES:".data), ("garbage".data)]

/-- Concrete input for claim C9: `NUMBER OF VERTICES: 2` but a required
edge line `(3,3) cost 1.0` — a self-loop on a node outside `1..2` — which
the parser accepts. -/
def linesC9 : List PyStr :=
  [("NUMBER OF VERTICES: 2".data), ("VEHICLE CAPACITY: 10".data),
    ("LIST_REQUIRED_EDGES:".data), ("(3,3) cost 1.0".data), ("FAILURE_SCENARIO:".data)]

/-- A well-formed concrete scenario input. -/
def linesGood : List PyStr :=
  [("NUMBER OF VERTICES: 2".data), ("VEHICLE CAPACITY: 6".data),
    ("LIST_REQUIRED_EDGES:".data), ("(1,2) edge weight 3.0".data),
    ("FAILURE_SCENARIO:".data), ("DEPOT: 1".data)]

/-! ### The edge rebalancer (`rebalance_required_edges`) -/

def kwNumVehiclesC : PyStr := "NUMBER OF VEHICLES:".data

/-- The section the line loop of `rebalance_required_edges` is inside
(`header` plays the role of Python's `None`). -/
inductive RSec
  | header
  | required
  | nonrequired
  | footer
deriving DecidableEq

/-- The four line buckets `rebalance_required_edges` accumulates. -/
structure RSections where
  header : List PyStr
  req : List PyStr
  nonreq : List PyStr
  footer : List PyStr
deriving DecidableEq

/-- One iteration of the section-splitting loop of
`rebalance_required_edges`. -/
def rsecStep (st : RSec × RSections) (line : PyStr) : RSec × RSections :=
  let s := trimChars line
  if pfx kwListReq s then
    (RSec.required, { st.2 with header := st.2.header ++ [line] })
  else if pfx kwListNonReq s then
    (RSec.nonrequired, st.2)
  else if endsColon s = true ∧ (st.1 = RSec.required ∨ st.1 = RSec.nonrequired) then
    (RSec.footer, { st.2 with footer := st.2.footer ++ [line] })
  else
    match st.1 with
    | RSec.header => (st.1, { st.2 with header := st.2.header ++ [line] })
    | RSec.required =>
      if pfx (['(']) s then (st.1, { st.2 with req := st.2.req ++ [line] })
      else (st.1, { st.2 with header := st.2.header ++ [line] })
    | RSec.nonrequired =>
      if pfx (['(']) s then (st.1, { st.2 with nonreq := st.2.nonreq ++ [line] })
      else (st.1, st.2)
    | RSec.footer => (st.1, { st.2 with footer := st.2.footer ++ [line] })

/-- Step 1 of `rebalance_required_edges`: split the file into header,
required-edge lines, non-required-edge lines and footer. -/
def splitSections (lines : List PyStr) : RSections :=
  (lines.foldl rsecStep (RSec.header, ⟨[], [], [], []⟩)).2

/-- The loop `for _ in range(k): nonreq_lines.insert(0, req_lines.pop())`
(the `none` branch mirrors the `IndexError` of `pop` on an empty list,
unreachable under the caller's guard). -/
def moveToNonreq : Nat → List PyStr → List PyStr → List PyStr × List PyStr
  | 0, req, nonreq => (req, nonreq)
  | k + 1, req, nonreq =>
    match req.getLast? with
    | none => (req, nonreq)
    | some x => moveToNonreq k req.dropLast (x :: nonreq)

/-- The loop `for _ in range(k): req_lines.append(nonreq_lines.pop(0))`
with its `if not nonreq_lines: break` guard. -/
def moveFromNonreq : Nat → List PyStr → List PyStr → List PyStr × List PyStr
  | 0, req, nonreq => (req, nonreq)
  | _ + 1, req, [] => (req, [])
  | k + 1, req, x :: rest => moveFromNonreq k (req ++ [x]) rest

/-- `target_req = math.ceil(total_edges / 2)`. -/
def targetReq (total : Nat) : Nat := (total + 1) / 2

/-- Step 2 of `rebalance_required_edges`: move lines between the required
and non-required buckets until the required side holds `targetReq` lines. -/
def rebalanceLists (req nonreq : List PyStr) : List PyStr × List PyStr :=
  let target := targetReq (req.length + nonreq.length)
  if req.length > target then moveToNonreq (req.length - target) req nonreq
  else moveFromNonreq (target - req.length) req nonreq

/-- Header lines up to and including the `LIST_REQUIRED_EDGES:` marker
(the loop `break`s right after appending the marker line). -/
def headerUpToMarker : List PyStr → List PyStr
  | [] => []
  | l :: rest =>
    if pfx kwListReq (trimChars l) then [l]
    else l :: headerUpToMarker rest

/-- Split on runs of `[, \t]+` as `re.split` does, before dropping empty
tokens. -/
def splitAnyOf (seps : List Char) : PyStr → List PyStr
  | [] => [[]]
  | c :: rest =>
    match splitAnyOf seps rest with
    | [] => [[]]
    | h :: t => if c ∈ seps then [] :: h :: t else (c :: h) :: t

/-- Step 4 of `rebalance_required_edges`: token count of the first `DEPOT:`
line (0 when none is found; the `none` branch mirrors the impossible
missing-colon case). -/
def depotTokenCount : List PyStr → Nat
  | [] => 0
  | l :: rest =>
    if pfx kwDepot (trimChars l) then
      match splitCharOnce ':' l with
      | none => 0
      | some (_, after) =>
        (((splitAnyOf [',', ' ', '\t']) (trimChars after)).filter (fun t => t ≠ [])).length
    else depotTokenCount rest

/-- `vehicle_count = 2 if depot_count == 1 else depot_count`. -/
def vehicleCountOf (dc : Nat) : Nat := if dc = 1 then 2 else dc

/-- Step 3 of `rebalance_required_edges`: reassemble the file. -/
def rebalanceOut (lines : List PyStr) : List PyStr :=
  headerUpToMarker (splitSections lines).header
    ++ (rebalanceLists (splitSections lines).req (splitSections lines).nonreq).1
    ++ [("LIST_NON_REQUIRED_EDGES:\n".data)]
    ++ (rebalanceLists (splitSections lines).req (splitSections lines).nonreq).2
    ++ (splitSections lines).footer

/-- Step 5 of `rebalance_required_edges`: rewrite the three count lines. -/
def fixCountLines (reqLen nonreqLen vc : Nat) : List PyStr → List PyStr :=
  List.map (fun line =>
    if pfx kwNumReqEdges (trimChars line) then
      ("NUMBER OF REQUIRED_EDGES: ".data) ++ natRepr reqLen ++ ['\n']
    else if pfx kwNumNonReqEdges (trimChars line) then
      ("NUMBER OF NON_REQUIRED_EDGES: ".data) ++ natRepr nonreqLen ++ ['\n']
    else if pfx kwNumVehiclesC (trimChars line) then
      ("NUMBER OF VEHICLES: ".data) ++ natRepr vc ++ ['\n']
    else line)

/-! ### Coverage (`compute_coverage`: single-source shortest-path lengths
bounded by a cutoff) -/

/-- Pointwise minimum on optional distances (`none` meaning unreachable). -/
def optMin : Option ℚ → Option ℚ → Option ℚ
  | none, b => b
  | some x, none => some x
  | some x, some y => some (min x y)

/-- One relaxation pass improving `d v` through every edge once (in either
direction — the graph is undirected). -/
def relaxOnce (G : Graph) (d : Int → Option ℚ) (v : Int) : Option ℚ :=
  G.edges.foldl
    (fun acc e =>
      optMin
        (optMin acc (if e.u = v then (d e.v).map (fun q => q + e.weight) else none))
        (if e.v = v then (d e.u).map (fun q => q + e.weight) else none))
    (d v)

/-- `k` relaxation passes. -/
def iterRelax (G : Graph) : Nat → (Int → Option ℚ) → Int → Option ℚ
  | 0, d => d
  | k + 1, d => iterRelax G k (relaxOnce G d)

/-- The distance map of `nx.single_source_dijkstra_path_length(G, src)`:
one relaxation pass per node bounds every shortest path, and on the
nonnegative weights of the format this coincides with Dijkstra's output. -/
def dijkstraLengths (G : Graph) (src : Int) : Int → Option ℚ :=
  iterRelax G G.nodesList.length (fun v => if v = src then some 0 else none)

/-- `compute_coverage(G, radius)[node]`: the nodes whose shortest-path
distance from `node` is at most the cutoff `radius`. -/
def compute_coverage (G : Graph) (radius : ℚ) (node : Int) : Finset Int :=
  (G.nodesList.filter (fun v =>
    match dijkstraLengths G node v with
    | some q => decide (q ≤ radius)
    | none => false)).toFinset

/-- Refinement order on optional distances: every distance `b` reports is
matched by a distance of `a` at most as large. -/
def optLE (a b : Option ℚ) : Prop :=
  ∀ q, b = some q → ∃ p, a = some p ∧ p ≤ q

/-! ### Greedy depot selection (`select_depots`,
`select_depots_with_factor`) -/

/-- One step of the `for node in G.nodes()` scan: carry the running
`(best_node, best_gain)`, started at `(None, -1)`; only a strictly larger
gain replaces the candidate, so the first maximum wins. -/
def bestStep (gain : Int → Nat) (selected : List Int) (st : Option Int × Int) (n : Int) :
    Option Int × Int :=
  if n ∈ selected then st
  else if (gain n : Int) > st.2 then (some n, (gain n : Int)) else st

/-- The candidate scan of one `while` iteration of the greedy selection. -/
def bestNode (nodes : List Int) (gain : Int → Nat) (selected : List Int) : Option Int :=
  (nodes.foldl (bestStep gain selected) (none, -1)).1

/-- The marginal gain `len(coverage[node] - covered)`. -/
def gainOf (coverage : Int → Finset Int) (covered : Finset Int) (n : Int) : Nat :=
  ((coverage n) \ covered).card

/-- Python `set.add` on the insertion-ordered list model of a set. -/
def addSel (selected : List Int) (b : Int) : List Int :=
  if b ∈ selected then selected else selected ++ [b]

/-- The not-yet-selected nodes, in iteration order. -/
def unsel (selected nodes : List Int) : List Int :=
  nodes.filter (fun n => decide (n ∉ selected))

/-- The greedy `while covered != all_nodes` loop, fuelled by the node
count: every iteration selects a fresh node, so after `|nodes|` iterations
the Python loop can only exit (either everything is covered or no
unselected candidate remains and it breaks returning the same state). -/
def greedyLoop (nodes : List Int) (coverage : Int → Finset Int) (allNodes : Finset Int) :
    Nat → List Int → Finset Int → List Int × Finset Int
  | 0, selected, covered => (selected, covered)
  | fuel + 1, selected, covered =>
    if covered = allNodes then (selected, covered)
    else
      match bestNode nodes (gainOf coverage covered) selected with
      | none => (selected, covered)
      | some b =>
        greedyLoop nodes coverage allNodes fuel (addSel selected b) (covered ∪ coverage b)

/-- `select_depots(G, battery_capacity)`: greedy cover with radius
`battery_capacity / 2` (edge `travel_time` is the parsed `weight`). -/
def select_depots (G : Graph) (cap : ℚ) : List Int :=
  (greedyLoop G.nodesList (compute_coverage G (cap / 2)) G.nodesList.toFinset
    G.nodesList.length [] ∅).1

/-- `select_depots_with_factor(G, battery_capacity, factor)`: greedy cover
with radius `battery_capacity / factor`. -/
def select_depots_with_factor (G : Graph) (cap factor : ℚ) : List Int :=
  (greedyLoop G.nodesList (compute_coverage G (cap / factor)) G.nodesList.toFinset
    G.nodesList.length [] ∅).1

/-! ### The per-file update of `update_all_instances` -/

/-- The filter dropping the old `DEPOT:` and `NUMBER OF VEHICLES` lines. -/
def keepLine (l : PyStr) : Bool :=
  !(pfx kwDepot (trimChars l)) && !(pfx kwNumVehicles (trimChars l))

/-- The f-string `NUMBER OF VEHICLES: {num_vehicles}\n`. -/
def vehicleLine (k : Nat) : PyStr :=
  ("NUMBER OF VEHICLES: ".data) ++ natRepr k ++ ['\n']

/-- The f-string `DEPOT: {','.join(str(d) for d in sorted(new_depots))}\n`. -/
def depotLine (ds : List Int) : PyStr :=
  ("DEPOT: ".data) ++ myIntercalate [','] (ds.map intRepr) ++ ['\n']

/-- Sorted insertion, for Python `sorted` on the selected node set. -/
def insertSorted (x : Int) : List Int → List Int
  | [] => [x]
  | y :: ys => if x ≤ y then x :: y :: ys else y :: insertSorted x ys

/-- Python `sorted` on the (distinct) selected nodes. -/
def sortInts : List Int → List Int
  | [] => []
  | x :: xs => insertSorted x (sortInts xs)

/-- The body of the per-scenario iteration of `update_all_instances`:
parse, select new depots, set the vehicle count to the number of depots,
drop the old `DEPOT`/`NUMBER OF VEHICLES` lines and append the new two
lines at the end.  Returns the output lines, the selected depots and the
vehicle count. -/
def update_instance (lines : List PyStr) :
    Except ParseErr (List PyStr × List Int × Nat) :=
  match parse_text_file lines with
  | .error e => .error e
  | .ok (G, _, cap) =>
    .ok (lines.filter keepLine
          ++ [vehicleLine (select_depots G cap).length,
              depotLine (sortInts (select_depots G cap))],
      select_depots G cap, (select_depots G cap).length)

/-- Projection of `update_instance` onto depots and vehicle count, for
concrete evaluation. -/
def updateResult (lines : List PyStr) : Option (List Int × Nat) :=
  match update_instance lines with
  | .ok (_, d, k) => some (d, k)
  | .error _ => none

/-- Concrete input for claim C8's counterexample: an accepted scenario that
ends inside the `LIST_REQUIRED_EDGES` section (no `FAILURE_SCENARIO`
footer). -/
def linesC8 : List PyStr :=
  [("NUMBER OF VERTICES: 2".data), ("VEHICLE CAPACITY: 6".data),
    ("LIST_REQUIRED_EDGES:".data), ("(1,2) edge weight 3.0".data)]

/-- The re-parse of the file written by `update_all_instances`, for
concrete evaluation: `none` when the update step itself fails. -/
def roundTrip (lines : List PyStr) : Option (Except ParseErr (Graph × List Int × ℚ)) :=
  match update_instance lines with
  | .ok out => some (parse_text_file out.1)
  | .error _ => none

/-- Concrete input for claim C1: a one-node scenario on which the greedy
selection places exactly one depot. -/
def linesC1 : List PyStr :=
  [("NUMBER OF VERTICES: 1".data), ("VEHICLE CAPACITY: 4".data),
    ("LIST_REQUIRED_EDGES:".data), ("LIST_NON_REQUIRED_EDGES:".data),
    ("FAILURE_SCENARIO:".data), ("NUMBER OF VEHICLES: 1".data), ("DEPOT: 1".data)]

/-- The two parses of claim C8 agree on everything except the depot list. -/
def stRel (s1 s2 : ParseState) : Prop :=
  s1.graph = s2.graph ∧ s1.battery = s2.battery ∧ s1.sec = s2.sec

/-- Invariant of the candidate scan after processing the prefix `p`: either
nothing unselected has been seen and the state is still `(None, -1)`, or
the state holds the first unselected node of maximal gain seen so far. -/
def BestInv (gain : Int → Nat) (selected : List Int) (p : List Int)
    (st : Option Int × Int) : Prop :=
  (st = (none, -1) ∧ unsel selected p = []) ∨
    (∃ x pre post, st = (some x, (gain x : Int)) ∧
      unsel selected p = pre ++ x :: post ∧
      (∀ a ∈ pre, gain a < gain x) ∧ (∀ a ∈ post, gain a ≤ gain x))

/-- `rebalance_required_edges(text_lines)`: returns the new lines, the
depot count, and the vehicle count. -/
def rebalance_required_edges (lines : List PyStr) : List PyStr × Nat × Nat :=
  (fixCountLines
      (rebalanceLists (splitSections lines).req (splitSections lines).nonreq).1.length
      (rebalanceLists (splitSections lines).req (splitSections lines).nonreq).2.length
      (vehicleCountOf (depotTokenCount (rebalanceOut lines)))
      (rebalanceOut lines),
    depotTokenCount (rebalanceOut lines),
    vehicleCountOf (depotTokenCount (rebalanceOut lines)))

/-! ## Theorems -/

/-! ### Prefix facts -/

theorem pfx_exists : ∀ (p t : PyStr), pfx p t = true ↔ ∃ r, t = p ++ r
  | [], t => by simp [pfx]
  | a :: as, [] => by simp [pfx]
  | a :: as, b :: bs => by
    simp only [pfx, Bool.and_eq_true, decide_eq_true_eq, pfx_exists as bs,
      List.cons_append, List.cons.injEq]
    constructor
    · rintro ⟨h1, r, h2⟩
      exact ⟨r, h1.symm, h2⟩
    · rintro ⟨r, h1, h2⟩
      exact ⟨h1.symm, r, h2⟩

theorem pfx_total : ∀ (p q t : PyStr), pfx p t = true → pfx q t = true →
    pfx p q = true ∨ pfx q p = true
  | [], _, _, _, _ => Or.inl rfl
  | _ :: _, [], _, _, _ => Or.inr rfl
  | a :: as, b :: bs, [], hp, _ => by simp [pfx] at hp
  | a :: as, b :: bs, c :: cs, hp, hq => by
    simp only [pfx, Bool.and_eq_true, decide_eq_true_eq] at hp hq ⊢
    obtain ⟨ha, hp2⟩ := hp
    obtain ⟨hb, hq2⟩ := hq
    rcases pfx_total as bs cs hp2 hq2 with h | h
    · exact Or.inl ⟨ha.trans hb.symm, h⟩
    · exact Or.inr ⟨hb.trans ha.symm, h⟩

theorem pfx_excl {p q t : PyStr} (hp : pfx p t = true) (h1 : pfx p q = false)
    (h2 : pfx q p = false) : pfx q t = false := by
  by_contra h
  rw [Bool.not_eq_false] at h
  rcases pfx_total p q t hp h with hc | hc
  · rw [h1] at hc
    cases hc
  · rw [h2] at hc
    cases hc

theorem pfx_append_self (p r : PyStr) : pfx p (p ++ r) = true :=
  (pfx_exists p (p ++ r)).2 ⟨r, rfl⟩

/-! ### Classification inversions -/

theorem classify_setCap_inv {sec : Option SecTag} {l : PyStr} {q : ℚ}
    (h : classify sec l = .setCap q) :
    isCapacityLine l = true ∧ capValue l = some q := by
  unfold classify classifyT at h
  repeat' split at h
  all_goals cases h
  all_goals simp_all [isCapacityLine, capValue]

theorem classify_fail_inv {sec : Option SecTag} {l : PyStr} {e : ParseErr}
    (h : classify sec l = .fail e) : e ≠ .capacityMissing := by
  unfold classify classifyT at h
  repeat' split at h
  all_goals cases h
  all_goals decide

theorem classify_addE_inv {sec : Option SecTag} {l : PyStr} {u v : Int} {w : ℚ} {req : Bool}
    (h : classify sec l = .addE u v w req) :
    parseEdgeLine (trimChars l) = some (u, v, w) := by
  unfold classify classifyT at h
  repeat' split at h
  all_goals cases h
  all_goals simp_all

theorem classify_of_cap {sec : Option SecTag} {l : PyStr}
    (h : isCapacityLine l = true) :
    (∃ q, classify sec l = .setCap q ∧ capValue l = some q) ∨
      classify sec l = .fail .badCapacity := by
  rw [isCapacityLine] at h
  have htne : trimChars l ≠ [] := by
    intro he
    rw [he] at h
    exact absurd h (by decide)
  have hNAME : pfx kwNAME (trimChars l) = false := pfx_excl h (by decide) (by decide)
  have hNV : pfx kwNumVertices (trimChars l) = false := pfx_excl h (by decide) (by decide)
  unfold classify classifyT
  simp only [htne, hNAME, hNV, h, if_false, if_true, Bool.false_eq_true, ite_false, ite_true]
  rcases hc : colon1 (trimChars l) with _ | f
  · simp only [hc]
    exact Or.inr trivial
  · simp only [hc]
    rcases hf : pyParseFloat (trimChars f) with _ | q
    · simp only [hf]
      exact Or.inr trivial
    · simp only [hf]
      refine Or.inl ⟨q, by simp, by simp only [capValue, hc, hf]⟩

/-! ### Battery bookkeeping for the parser -/

theorem parseLine_battery_of_not_cap {s : ParseState} {l : PyStr} {s2 : ParseState}
    (hcap : isCapacityLine l = false) (h : parseLine s l = .ok s2) :
    s2.battery = s.battery := by
  unfold parseLine at h
  cases hc : classify s.sec l with
  | setCap q =>
    have := (classify_setCap_inv hc).1
    rw [hcap] at this
    cases this
  | skip => rw [hc] at h; simp only [applyAct, Except.ok.injEq] at h; rw [← h]
  | addNodes n => rw [hc] at h; simp only [applyAct, Except.ok.injEq] at h; rw [← h]
  | setSec t => rw [hc] at h; simp only [applyAct, Except.ok.injEq] at h; rw [← h]
  | setDepots ds => rw [hc] at h; simp only [applyAct, Except.ok.injEq] at h; rw [← h]
  | addE u v w req => rw [hc] at h; simp only [applyAct, Except.ok.injEq] at h; rw [← h]
  | fail e => rw [hc] at h; exact absurd h (by simp [applyAct])

theorem parseLine_battery_isSome {s : ParseState} {l : PyStr} {s2 : ParseState}
    (hb : s.battery.isSome = true) (h : parseLine s l = .ok s2) :
    s2.battery.isSome = true := by
  unfold parseLine at h
  cases hc : classify s.sec l <;> rw [hc] at h <;>
    simp only [applyAct, Except.ok.injEq] at h
  case setCap q => rw [← h]; rfl
  case fail e => cases h
  all_goals rw [← h]; exact hb

theorem parseLine_err_inv {s : ParseState} {l : PyStr} {e : ParseErr}
    (h : parseLine s l = .error e) : e ≠ .capacityMissing := by
  unfold parseLine at h
  cases hc : classify s.sec l <;> rw [hc] at h <;> simp only [applyAct] at h
  case fail e2 =>
    cases h
    exact classify_fail_inv hc
  all_goals cases h

theorem parseLines_battery_isSome {ls : List PyStr} :
    ∀ {s s2 : ParseState}, s.battery.isSome = true → parseLines s ls = .ok s2 →
      s2.battery.isSome = true := by
  induction ls with
  | nil =>
    intro s s2 hb h
    simp only [parseLines, Except.ok.injEq] at h
    rw [← h]
    exact hb
  | cons l rest ih =>
    intro s s2 hb h
    simp only [parseLines] at h
    cases hl : parseLine s l with
    | ok u => rw [hl] at h; exact ih (parseLine_battery_isSome hb hl) h
    | error e => rw [hl] at h; cases h

theorem parseLines_battery_of_no_cap {ls : List PyStr} :
    ∀ {s s2 : ParseState}, (∀ l ∈ ls, isCapacityLine l = false) →
      parseLines s ls = .ok s2 → s2.battery = s.battery := by
  induction ls with
  | nil =>
    intro s s2 _ h
    simp only [parseLines, Except.ok.injEq] at h
    rw [← h]
  | cons l rest ih =>
    intro s s2 hno h
    simp only [parseLines] at h
    cases hl : parseLine s l with
    | ok u =>
      rw [hl] at h
      have h1 := ih (fun x hx => hno x (List.mem_cons_of_mem l hx)) h
      rw [h1, parseLine_battery_of_not_cap (hno l (List.mem_cons_self l rest)) hl]
    | error e => rw [hl] at h; cases h

theorem parseLines_err_inv {ls : List PyStr} :
    ∀ {s : ParseState} {e : ParseErr}, parseLines s ls = .error e →
      e ≠ .capacityMissing := by
  induction ls with
  | nil => intro s e h; cases h
  | cons l rest ih =>
    intro s e h
    simp only [parseLines] at h
    cases hl : parseLine s l with
    | ok u => rw [hl] at h; exact ih h
    | error e2 =>
      rw [hl] at h
      cases h
      exact parseLine_err_inv hl

theorem parseLines_cap_present {ls : List PyStr} :
    ∀ {s : ParseState}, (∃ l ∈ ls, isCapacityLine l = true) →
      (match parseLines s ls with
        | .error e => e ≠ ParseErr.capacityMissing
        | .ok s2 => s2.battery.isSome = true) := by
  induction ls with
  | nil =>
    intro s h
    obtain ⟨l, hl, _⟩ := h
    cases hl
  | cons l rest ih =>
    intro s h
    simp only [parseLines]
    cases hl : parseLine s l with
    | error e =>
      simp only [hl]
      exact parseLine_err_inv hl
    | ok u =>
      simp only [hl]
      by_cases hcap : isCapacityLine l = true
      · have hu : u.battery.isSome = true := by
          unfold parseLine at hl
          rcases @classify_of_cap s.sec l hcap with ⟨q, hq, _⟩ | hq <;> rw [hq] at hl
          · simp only [applyAct, Except.ok.injEq] at hl
            rw [← hl]
            rfl
          · cases hl
        cases hr : parseLines u rest with
        | error e =>
          simp only [hr]
          exact parseLines_err_inv hr
        | ok s2 =>
          simp only [hr]
          exact parseLines_battery_isSome hu hr
      · obtain ⟨x, hx, hxc⟩ := h
        rcases List.mem_cons.1 hx with rfl | hx2
        · exact absurd hxc hcap
        · exact ih (s := u) ⟨x, hx2, hxc⟩

theorem parseLines_battery_origin {ls : List PyStr} :
    ∀ {s s2 : ParseState} {c : ℚ}, parseLines s ls = .ok s2 → s2.battery = some c →
      s.battery = some c ∨ ∃ l ∈ ls, isCapacityLine l = true ∧ capValue l = some c := by
  induction ls with
  | nil =>
    intro s s2 c h hb
    simp only [parseLines, Except.ok.injEq] at h
    rw [h]
    exact Or.inl hb
  | cons l rest ih =>
    intro s s2 c h hb
    simp only [parseLines] at h
    cases hl : parseLine s l with
    | error e => rw [hl] at h; cases h
    | ok u =>
      rw [hl] at h
      rcases ih h hb with hu | ⟨x, hx, hxc⟩
      · unfold parseLine at hl
        cases hc : classify s.sec l <;> rw [hc] at hl <;>
          simp only [applyAct, Except.ok.injEq] at hl
        case setCap q =>
          rw [← hl] at hu
          simp only at hu
          cases hu
          obtain ⟨h1, h2⟩ := classify_setCap_inv hc
          exact Or.inr ⟨l, List.mem_cons_self l rest, h1, h2⟩
        case fail e => cases hl
        all_goals rw [← hl] at hu; exact Or.inl hu
      · exact Or.inr ⟨x, List.mem_cons_of_mem l hx, hxc⟩

/-! ### Edge-endpoint bookkeeping for the parser -/

theorem addNode_edges (G : Graph) (x : Int) : (addNode G x).edges = G.edges := by
  unfold addNode
  split <;> rfl

theorem foldl_addNode_edges : ∀ (xs : List Int) (G : Graph),
    (xs.foldl addNode G).edges = G.edges
  | [], _ => rfl
  | x :: xs, G => by
    rw [List.foldl_cons, foldl_addNode_edges xs (addNode G x), addNode_edges]

theorem addNodesRange_edges (G : Graph) (n : Int) :
    (addNodesRange G n).edges = G.edges :=
  foldl_addNode_edges (intRange n) G

theorem addEdge_edges_good {G : Graph} {u v : Int} {w : ℚ} {req : Bool} {N : Int}
    (hG : ∀ e ∈ G.edges, goodEnds N e.u e.v) (hnew : goodEnds N u v) :
    ∀ e ∈ (addEdge G u v w req).edges, goodEnds N e.u e.v := by
  intro e he
  simp only [addEdge, addNode_edges] at he
  split at he
  · simp only [List.mem_map] at he
    obtain ⟨e0, he0, hrw⟩ := he
    by_cases hs : sameEnds e0 u v = true
    · rw [if_pos hs] at hrw
      rw [← hrw]
      exact hG e0 he0
    · rw [if_neg hs] at hrw
      rw [← hrw]
      exact hG e0 he0
  · rcases List.mem_append.1 he with h0 | h1
    · exact hG e h0
    · rw [List.mem_singleton.1 h1]
      exact hnew

theorem parseLine_edges_good {s : ParseState} {l : PyStr} {s2 : ParseState} {N : Int}
    (hl : ∀ u v w, parseEdgeLine (trimChars l) = some (u, v, w) → goodEnds N u v)
    (hG : ∀ e ∈ s.graph.edges, goodEnds N e.u e.v)
    (hok : parseLine s l = .ok s2) :
    ∀ e ∈ s2.graph.edges, goodEnds N e.u e.v := by
  unfold parseLine at hok
  cases hc : classify s.sec l <;> rw [hc] at hok <;>
    simp only [applyAct, Except.ok.injEq] at hok
  case fail e => cases hok
  case addNodes n =>
    rw [← hok]
    simp only [addNodesRange_edges]
    exact hG
  case addE u v w req =>
    rw [← hok]
    simp only
    exact addEdge_edges_good hG (hl u v w (classify_addE_inv hc))
  all_goals rw [← hok]; exact hG

theorem parseLines_edges_good {ls : List PyStr} :
    ∀ {s s2 : ParseState} {N : Int},
      (∀ l ∈ ls, ∀ u v w, parseEdgeLine (trimChars l) = some (u, v, w) → goodEnds N u v) →
      (∀ e ∈ s.graph.edges, goodEnds N e.u e.v) →
      parseLines s ls = .ok s2 →
      ∀ e ∈ s2.graph.edges, goodEnds N e.u e.v := by
  induction ls with
  | nil =>
    intro s s2 N _ hG h
    simp only [parseLines, Except.ok.injEq] at h
    rw [← h]
    exact hG
  | cons l rest ih =>
    intro s s2 N hls hG h
    simp only [parseLines] at h
    cases hl : parseLine s l with
    | error e => rw [hl] at h; cases h
    | ok u =>
      rw [hl] at h
      exact ih (fun x hx => hls x (List.mem_cons_of_mem l hx))
        (parseLine_edges_good (hls l (List.mem_cons_self l rest)) hG hl) h

/-- C7 counterexample: the annotation `weight 5` contains the token
`weight` (and the number 5 follows it) but none of the tokens the code
actually searches for, so the balanced `extract_weight` falls back to the
default `1.0` — and it does emit the diagnostic, contrary to the claim that
a found "weight" token yields the following number with no diagnostic. -/
theorem claim_C7_counterexample :
    extract_weight_balanced ("weight 5".data) = (1, true) ∧
    (extract_weight_balanced ("weight 5".data)).1 ≠ (5 : ℚ) := by
  constructor
  · with_unfolding_all decide
  · with_unfolding_all decide

/-- C7 (amended): weight extraction looks for the substring `edge weight`
first and then `cost`, returning the parsed number following the found
token; when neither token occurs it returns the default `1.0`, with a
diagnostic only in the `balanced_failure_scenarios.py` copy (the other two
copies are silent); when the text after the found token fails to parse as a
number it returns `1.0` silently. -/
theorem claim_C7 (text : PyStr) :
    (containsSeq kwEdgeWeight text = false → containsSeq kwCost text = false →
      extract_weight_balanced text = (1, true) ∧
      extract_weight_visualize text = (1, false)) ∧
    (containsSeq kwEdgeWeight (trimChars text) = false →
      containsSeq kwCost (trimChars text) = false →
      extract_weight_updated text = (1, false)) ∧
    (containsSeq kwEdgeWeight text = true →
      extract_weight_balanced text =
        (floatOr1 (trimChars ((splitSeq kwEdgeWeight text).getD 1 [])), false)) ∧
    (containsSeq kwEdgeWeight text = false → containsSeq kwCost text = true →
      extract_weight_balanced text =
        (floatOr1 (trimChars ((splitSeq kwCost text).getD 1 [])), false)) ∧
    (containsSeq kwEdgeWeight text = true →
      pyParseFloat (trimChars ((splitSeq kwEdgeWeight text).getD 1 [])) = none →
      extract_weight_balanced text = (1, false)) := by
  refine ⟨fun h1 h2 => ?_, fun h1 h2 => ?_, fun h1 => ?_, fun h1 h2 => ?_, fun h1 hp => ?_⟩
  · constructor
    · simp [extract_weight_balanced, h1, h2]
      with_unfolding_all decide
    · simp [extract_weight_visualize, h1, h2]
      with_unfolding_all decide
  · simp [extract_weight_updated, h1, h2]
  · simp [extract_weight_balanced, h1]
  · simp [extract_weight_balanced, h1, h2]
  · simp only [extract_weight_balanced, h1, if_true, floatOr1, hp, Option.getD_none]

/-- C7 witness: on `(1,2) cost 7` the `cost` branch fires and returns the
number following the token. -/
theorem claim_C7_witness :
    containsSeq kwEdgeWeight ("(1,2) cost 7".data) = false ∧
    containsSeq kwCost ("(1,2) cost 7".data) = true ∧
    extract_weight_balanced ("(1,2) cost 7".data) =
      (floatOr1 (trimChars ((splitSeq kwCost ("(1,2) cost 7".data)).getD 1 [])), false) :=
  ⟨by decide, by decide, (claim_C7 (("(1,2) cost 7".data))).2.2.2.1 (by decide) (by decide)⟩

/-! ### Rebalancer lengths -/

theorem moveToNonreq_len : ∀ (k : Nat) (req nonreq : List PyStr), k ≤ req.length →
    (moveToNonreq k req nonreq).1.length = req.length - k ∧
    (moveToNonreq k req nonreq).2.length = nonreq.length + k
  | 0, req, nonreq, _ => ⟨by simp [moveToNonreq], by simp [moveToNonreq]⟩
  | k + 1, req, nonreq, h => by
    rcases List.eq_nil_or_concat req with rfl | ⟨rs, x, rfl⟩
    · simp at h
    · rw [List.concat_eq_append] at h ⊢
      simp only [moveToNonreq, List.getLast?_concat, List.dropLast_concat]
      have h2 : k ≤ rs.length := by
        simp only [List.length_append, List.length_singleton] at h
        omega
      obtain ⟨ih1, ih2⟩ := moveToNonreq_len k rs (x :: nonreq) h2
      constructor
      · rw [ih1]
        simp only [List.length_append, List.length_singleton]
        omega
      · rw [ih2]
        simp only [List.length_cons]
        omega

theorem moveFromNonreq_len : ∀ (k : Nat) (req nonreq : List PyStr), k ≤ nonreq.length →
    (moveFromNonreq k req nonreq).1.length = req.length + k ∧
    (moveFromNonreq k req nonreq).2.length = nonreq.length - k
  | 0, req, nonreq, _ => ⟨by simp [moveFromNonreq], by simp [moveFromNonreq]⟩
  | k + 1, req, [], h => by simp at h
  | k + 1, req, x :: rest, h => by
    simp only [moveFromNonreq]
    have h2 : k ≤ rest.length := by
      simp only [List.length_cons] at h
      omega
    obtain ⟨ih1, ih2⟩ := moveFromNonreq_len k (req ++ [x]) rest h2
    constructor
    · rw [ih1]
      simp only [List.length_append, List.length_singleton]
      omega
    · rw [ih2]
      simp only [List.length_cons]
      omega

theorem rebalanceLists_req_len (req nonreq : List PyStr) :
    (rebalanceLists req nonreq).1.length = targetReq (req.length + nonreq.length) := by
  simp only [rebalanceLists]
  split
  · rename_i h
    have hk := (moveToNonreq_len (req.length - targetReq (req.length + nonreq.length))
      req nonreq (by omega)).1
    rw [hk]
    omega
  · rename_i h
    have hle : targetReq (req.length + nonreq.length) - req.length ≤ nonreq.length := by
      unfold targetReq
      omega
    have hk := (moveFromNonreq_len (targetReq (req.length + nonreq.length) - req.length)
      req nonreq hle).1
    rw [hk]
    omega

/-- C2: after `rebalance_required_edges`, the number of required-edge lines
equals `ceil(total/2)` over the input's edge-line counts — the
non-required-exhausted fallback of the claim never actually fires, because
the number of lines to move never exceeds the non-required count, so the
first disjunct always holds. -/
theorem claim_C2 (lines : List PyStr) :
    (rebalanceLists (splitSections lines).req (splitSections lines).nonreq).1.length
        = targetReq ((splitSections lines).req.length + (splitSections lines).nonreq.length) ∨
      ((rebalanceLists (splitSections lines).req (splitSections lines).nonreq).2 = [] ∧
        (rebalanceLists (splitSections lines).req (splitSections lines).nonreq).1.length
          ≤ targetReq ((splitSections lines).req.length + (splitSections lines).nonreq.length)) :=
  Or.inl (rebalanceLists_req_len _ _)

/-! ### Coverage facts -/

theorem optLE_refl (a : Option ℚ) : optLE a a :=
  fun q h => ⟨q, h, le_refl q⟩

theorem optLE_trans {a b c : Option ℚ} (h1 : optLE a b) (h2 : optLE b c) : optLE a c :=
  fun q hc =>
    match h2 q hc with
    | ⟨p, hb, hpq⟩ =>
      match h1 p hb with
      | ⟨r, ha, hrp⟩ => ⟨r, ha, le_trans hrp hpq⟩

theorem optMin_le_left (a b : Option ℚ) : optLE (optMin a b) a := by
  cases a with
  | none =>
    intro q h
    cases h
  | some x =>
    cases b with
    | none => exact optLE_refl (some x)
    | some y =>
      intro q h
      cases h
      exact ⟨min x y, rfl, min_le_left x y⟩

theorem foldl_optLE {α : Type} (f : Option ℚ → α → Option ℚ)
    (hf : ∀ acc x, optLE (f acc x) acc) :
    ∀ (l : List α) (init : Option ℚ), optLE (l.foldl f init) init
  | [], init => optLE_refl init
  | x :: xs, init => optLE_trans (foldl_optLE f hf xs (f init x)) (hf init x)

theorem relaxOnce_le (G : Graph) (d : Int → Option ℚ) (v : Int) :
    optLE (relaxOnce G d v) (d v) := by
  unfold relaxOnce
  apply foldl_optLE
  intro acc e
  exact optLE_trans (optMin_le_left _ _) (optMin_le_left _ _)

theorem iterRelax_le (G : Graph) :
    ∀ (k : Nat) (d : Int → Option ℚ) (v : Int), optLE (iterRelax G k d v) (d v)
  | 0, d, v => optLE_refl (d v)
  | k + 1, d, v =>
    optLE_trans (iterRelax_le G k (relaxOnce G d) v) (relaxOnce_le G d v)

theorem self_mem_coverage {G : Graph} {radius : ℚ} (h : 0 ≤ radius) {v : Int}
    (hv : v ∈ G.nodesList) : v ∈ compute_coverage G radius v := by
  unfold compute_coverage
  rw [List.mem_toFinset, List.mem_filter]
  refine ⟨hv, ?_⟩
  have hle := iterRelax_le G G.nodesList.length (fun w => if w = v then some 0 else none) v
  obtain ⟨p, hp, hple⟩ := hle 0 (by simp)
  have hd : dijkstraLengths G v v = some p := hp
  rw [hd]
  exact decide_eq_true (le_trans hple h)

/-- Coverage sets only contain nodes of the graph. -/
theorem coverage_subset {G : Graph} {radius : ℚ} {node v : Int}
    (h : v ∈ compute_coverage G radius node) : v ∈ G.nodesList := by
  unfold compute_coverage at h
  rw [List.mem_toFinset, List.mem_filter] at h
  exact h.1

/-- C5: for every graph and every radius at least 0, the coverage map of
`compute_coverage` assigns to each node of the graph a set containing that
node itself (its own distance is 0). -/
theorem claim_C5 (G : Graph) (radius : ℚ) (h : 0 ≤ radius) :
    ∀ v ∈ G.nodesList, v ∈ compute_coverage G radius v :=
  fun _ hv => self_mem_coverage h hv

/-- C5 witness: on a concrete two-node graph with radius 3, both nodes lie
in their own coverage sets. -/
theorem claim_C5_witness :
    (0 : ℚ) ≤ 3 ∧
      ∀ v ∈ (Graph.mk [1, 2] [⟨1, 2, 3, true⟩]).nodesList,
        v ∈ compute_coverage (Graph.mk [1, 2] [⟨1, 2, 3, true⟩]) 3 v :=
  ⟨by norm_num, claim_C5 (Graph.mk [1, 2] [⟨1, 2, 3, true⟩]) 3 (by norm_num)⟩

/-! ### Greedy-scan characterization -/

theorem unsel_append (sel p : List Int) (n : Int) :
    unsel sel (p ++ [n]) = unsel sel p ++ unsel sel [n] := by
  unfold unsel
  rw [List.filter_append]

theorem bestInv_step (gain : Int → Nat) (sel : List Int) (p : List Int)
    (st : Option Int × Int) (n : Int) (h : BestInv gain sel p st) :
    BestInv gain sel (p ++ [n]) (bestStep gain sel st n) := by
  unfold BestInv at h ⊢
  by_cases hn : n ∈ sel
  · have hu : unsel sel (p ++ [n]) = unsel sel p := by
      rw [unsel_append]
      simp [unsel, hn]
    rw [hu]
    unfold bestStep
    rw [if_pos hn]
    exact h
  · have hu : unsel sel (p ++ [n]) = unsel sel p ++ [n] := by
      rw [unsel_append]
      simp [unsel, hn]
    rw [hu]
    unfold bestStep
    rw [if_neg hn]
    rcases h with ⟨h1, h2⟩ | ⟨x, pre, post, h1, h2, h3, h4⟩
    · subst h1
      rw [if_pos (by simp only []; omega)]
      refine Or.inr ⟨n, [], [], rfl, ?_, ?_, ?_⟩
      · rw [h2]
      · intro a ha
        cases ha
      · intro a ha
        cases ha
    · subst h1
      by_cases hg : (gain n : Int) > (gain x : Int)
      · rw [if_pos hg]
        refine Or.inr ⟨n, pre ++ x :: post, [], rfl, ?_, ?_, ?_⟩
        · rw [h2]
        · intro a ha
          have hgn : gain x < gain n := by exact_mod_cast hg
          rcases List.mem_append.1 ha with hpre | hxpost
          · exact lt_trans (h3 a hpre) hgn
          · rcases List.mem_cons.1 hxpost with rfl | hpost
            · exact hgn
            · exact lt_of_le_of_lt (h4 a hpost) hgn
        · intro a ha
          cases ha
      · rw [if_neg hg]
        refine Or.inr ⟨x, pre, post ++ [n], rfl, ?_, h3, ?_⟩
        · rw [h2, List.append_assoc, List.cons_append]
        · intro a ha
          rcases List.mem_append.1 ha with hpost | hn1
          · exact h4 a hpost
          · rw [List.mem_singleton.1 hn1]
            have := not_lt.1 hg
            exact_mod_cast this

theorem bestInv_fold (gain : Int → Nat) (sel : List Int) :
    ∀ (l p : List Int) (st : Option Int × Int),
      BestInv gain sel p st → BestInv gain sel (p ++ l) (l.foldl (bestStep gain sel) st)
  | [], p, st, h => by simpa using h
  | n :: rest, p, st, h => by
    have h2 := bestInv_step gain sel p st n h
    have h3 := bestInv_fold gain sel rest (p ++ [n]) (bestStep gain sel st n) h2
    rw [List.foldl_cons]
    have ha : (p ++ [n]) ++ rest = p ++ n :: rest := by simp
    rw [ha] at h3
    exact h3

theorem bestNode_spec (nodes : List Int) (gain : Int → Nat) (sel : List Int) :
    (bestNode nodes gain sel = none ∧ unsel sel nodes = []) ∨
    (∃ b pre post, bestNode nodes gain sel = some b ∧
      unsel sel nodes = pre ++ b :: post ∧
      (∀ a ∈ pre, gain a < gain b) ∧ (∀ a ∈ post, gain a ≤ gain b)) := by
  have h0 : BestInv gain sel [] (none, -1) := Or.inl ⟨rfl, rfl⟩
  have h := bestInv_fold gain sel nodes [] (none, -1) h0
  rw [List.nil_append] at h
  unfold BestInv at h
  rcases h with ⟨h1, h2⟩ | ⟨x, pre, post, h1, h2, h3, h4⟩
  · exact Or.inl ⟨by unfold bestNode; rw [h1], h2⟩
  · exact Or.inr ⟨x, pre, post, by unfold bestNode; rw [h1], h2, h3, h4⟩

theorem bestNode_none_iff (nodes : List Int) (gain : Int → Nat) (sel : List Int) :
    bestNode nodes gain sel = none ↔ unsel sel nodes = [] := by
  rcases bestNode_spec nodes gain sel with ⟨h1, h2⟩ | ⟨b, pre, post, h1, h2, _, _⟩
  · simp [h1, h2]
  · rw [h1, h2]
    constructor
    · intro hc
      cases hc
    · intro hc
      exact absurd hc (by simp)

theorem bestNode_max {nodes : List Int} {gain : Int → Nat} {sel : List Int} {b : Int}
    (h : bestNode nodes gain sel = some b) :
    b ∈ unsel sel nodes ∧ ∀ a ∈ unsel sel nodes, gain a ≤ gain b := by
  rcases bestNode_spec nodes gain sel with ⟨h1, _⟩ | ⟨x, pre, post, h1, h2, h3, h4⟩
  · rw [h] at h1
    cases h1
  · have hxb := h1.symm.trans h
    injection hxb with hx
    subst hx
    constructor
    · rw [h2]
      exact List.mem_append_right _ (List.mem_cons_self _ _)
    · intro a ha
      rw [h2] at ha
      rcases List.mem_append.1 ha with hpre | hxp
      · exact le_of_lt (h3 a hpre)
      · rcases List.mem_cons.1 hxp with rfl | hp
        · exact le_refl _
        · exact h4 a hp

theorem bestNode_fresh {nodes : List Int} {gain : Int → Nat} {sel : List Int} {b : Int}
    (h : bestNode nodes gain sel = some b) : b ∈ nodes ∧ b ∉ sel := by
  have hm := (bestNode_max h).1
  unfold unsel at hm
  rw [List.mem_filter] at hm
  exact ⟨hm.1, of_decide_eq_true hm.2⟩

/-! ### Greedy-loop facts -/

theorem greedyLoop_covered_mono (nodes : List Int) (coverage : Int → Finset Int)
    (allN : Finset Int) :
    ∀ (fuel : Nat) (sel : List Int) (cov : Finset Int),
      cov ⊆ (greedyLoop nodes coverage allN fuel sel cov).2
  | 0, sel, cov => by
    simp [greedyLoop]
  | fuel + 1, sel, cov => by
    unfold greedyLoop
    split
    · exact Finset.Subset.refl cov
    · cases hb : bestNode nodes (gainOf coverage cov) sel with
      | none =>
        simp only [hb]
        exact Finset.Subset.refl cov
      | some b =>
        simp only [hb]
        intro x hx
        exact greedyLoop_covered_mono nodes coverage allN fuel (addSel sel b)
          (cov ∪ coverage b) (Finset.mem_union_left _ hx)

theorem greedyLoop_sel_ext (nodes : List Int) (coverage : Int → Finset Int)
    (allN : Finset Int) :
    ∀ (fuel : Nat) (sel : List Int) (cov : Finset Int),
      ∃ ext, (greedyLoop nodes coverage allN fuel sel cov).1 = sel ++ ext
  | 0, sel, cov => ⟨[], by simp [greedyLoop]⟩
  | fuel + 1, sel, cov => by
    unfold greedyLoop
    split
    · exact ⟨[], by simp⟩
    · cases hb : bestNode nodes (gainOf coverage cov) sel with
      | none =>
        simp only [hb]
        exact ⟨[], by simp⟩
      | some b =>
        simp only [hb]
        obtain ⟨ext, he⟩ := greedyLoop_sel_ext nodes coverage allN fuel (addSel sel b)
          (cov ∪ coverage b)
        by_cases hbs : b ∈ sel
        · refine ⟨ext, ?_⟩
          rw [he]
          unfold addSel
          rw [if_pos hbs]
        · refine ⟨[b] ++ ext, ?_⟩
          rw [he]
          unfold addSel
          rw [if_neg hbs, List.append_assoc]

theorem exists_uncovered_unsel {nodes sel : List Int} {cov : Finset Int}
    (hsel : ∀ x ∈ sel, x ∈ cov) (hcov : cov ⊆ nodes.toFinset)
    (hne : cov ≠ nodes.toFinset) :
    ∃ w ∈ unsel sel nodes, w ∉ cov ∧ w ∈ nodes := by
  have hss : cov ⊂ nodes.toFinset := (Finset.ssubset_iff_subset_ne).2 ⟨hcov, hne⟩
  obtain ⟨w, hwA, hwc⟩ := Finset.exists_of_ssubset hss
  have hwn : w ∈ nodes := List.mem_toFinset.1 hwA
  have hws : w ∉ sel := fun hc => hwc (hsel w hc)
  refine ⟨w, ?_, hwc, hwn⟩
  unfold unsel
  rw [List.mem_filter]
  exact ⟨hwn, decide_eq_true hws⟩

theorem greedyLoop_covers (nodes : List Int) (coverage : Int → Finset Int)
    (hself : ∀ v ∈ nodes, v ∈ coverage v)
    (hsub : ∀ v, coverage v ⊆ nodes.toFinset) :
    ∀ (fuel : Nat) (sel : List Int) (cov : Finset Int),
      (∀ x ∈ sel, x ∈ cov) → cov ⊆ nodes.toFinset →
      nodes.toFinset.card - cov.card ≤ fuel →
      (greedyLoop nodes coverage nodes.toFinset fuel sel cov).2 = nodes.toFinset
  | 0, sel, cov => by
    intro _ hcov hcard
    have hc2 : nodes.toFinset.card ≤ cov.card := by omega
    have := Finset.eq_of_subset_of_card_le hcov hc2
    simpa [greedyLoop] using this
  | fuel + 1, sel, cov => by
    intro hsel hcov hcard
    unfold greedyLoop
    split
    · assumption
    · rename_i hne
      obtain ⟨w, hwu, hwc, hwn⟩ := exists_uncovered_unsel hsel hcov hne
      cases hb : bestNode nodes (gainOf coverage cov) sel with
      | none =>
        rw [bestNode_none_iff] at hb
        rw [hb] at hwu
        cases hwu
      | some b =>
        simp only [hb]
        have hbf := bestNode_fresh hb
        have hmax := (bestNode_max hb).2 w hwu
        have hgw : 0 < gainOf coverage cov w :=
          Finset.card_pos.2 ⟨w, Finset.mem_sdiff.2 ⟨hself w hwn, hwc⟩⟩
        have hgb : 0 < gainOf coverage cov b := lt_of_lt_of_le hgw hmax
        obtain ⟨z, hz⟩ := Finset.card_pos.1 hgb
        have hzb := Finset.mem_sdiff.1 hz
        have hstrict : cov.card < (cov ∪ coverage b).card := by
          apply Finset.card_lt_card
          refine (Finset.ssubset_iff_of_subset ?_).2
            ⟨z, Finset.mem_union_right _ hzb.1, hzb.2⟩
          intro x hx
          exact Finset.mem_union_left _ hx
        have hun : cov ∪ coverage b ⊆ nodes.toFinset := by
          intro x hx
          rcases Finset.mem_union.1 hx with h1 | h1
          · exact hcov h1
          · exact hsub b h1
        apply greedyLoop_covers nodes coverage hself hsub fuel (addSel sel b)
          (cov ∪ coverage b)
        · intro x hx
          unfold addSel at hx
          by_cases hbs : b ∈ sel
          · rw [if_pos hbs] at hx
            exact Finset.mem_union_left _ (hsel x hx)
          · rw [if_neg hbs] at hx
            rcases List.mem_append.1 hx with hx1 | hx2
            · exact Finset.mem_union_left _ (hsel x hx1)
            · rw [List.mem_singleton.1 hx2]
              exact Finset.mem_union_right _ (hself b hbf.1)
        · exact hun
        · have h1 : (cov ∪ coverage b).card ≤ nodes.toFinset.card :=
            Finset.card_le_card hun
          omega

/-- C3: in every iteration of the greedy selection scan, the node chosen is
the first unselected node, in the graph's node iteration order, among those
achieving the maximal marginal gain (everything before it has strictly
smaller gain, everything after it no larger gain); in particular, when the
node order is the sorted order `1..N`, the chosen node has the lowest id
among the equal-gain candidates.  The result is thus a deterministic
function of the gain map and the node order. -/
theorem claim_C3 (nodes : List Int) (gain : Int → Nat) (sel : List Int) (b : Int)
    (h : bestNode nodes gain sel = some b) :
    (∃ pre post, unsel sel nodes = pre ++ b :: post ∧
      (∀ a ∈ pre, gain a < gain b) ∧ (∀ a ∈ post, gain a ≤ gain b)) ∧
    (List.Sorted (· ≤ ·) nodes →
      ∀ a ∈ unsel sel nodes, gain a = gain b → b ≤ a) := by
  rcases bestNode_spec nodes gain sel with ⟨h1, _⟩ | ⟨x, pre, post, h1, h2, h3, h4⟩
  · rw [h] at h1
    cases h1
  · have hxb := h1.symm.trans h
    injection hxb with hx
    subst hx
    refine ⟨⟨pre, post, h2, h3, h4⟩, ?_⟩
    intro hs a ha hga
    have hpw : List.Pairwise (fun m n => m ≤ n) (unsel sel nodes) :=
      List.Pairwise.filter _ hs
    rw [h2] at hpw ha
    rcases List.mem_append.1 ha with hpre | hxp
    · exact absurd hga (ne_of_lt (h3 a hpre))
    · rcases List.mem_cons.1 hxp with rfl | hp
      · exact le_refl a
      · exact (List.pairwise_cons.1 (List.pairwise_append.1 hpw).2.1).1 a hp

/-- C3 witness: with equal gains everywhere, the scan over `[1, 2, 3]` with
node 1 already selected picks node 2 — the first unselected node in
iteration order. -/
theorem claim_C3_witness :
    bestNode [(1 : Int), 2, 3] (fun _ => 2) [1] = some 2 ∧
    ((∃ pre post, unsel [(1 : Int)] [1, 2, 3] = pre ++ 2 :: post ∧
        (∀ a ∈ pre, (2 : Nat) < 2) ∧ (∀ a ∈ post, (2 : Nat) ≤ 2)) ∧
      (List.Sorted (· ≤ ·) [(1 : Int), 2, 3] →
        ∀ a ∈ unsel [(1 : Int)] [1, 2, 3], (2 : Nat) = 2 → (2 : Int) ≤ a)) :=
  ⟨by decide, claim_C3 [(1 : Int), 2, 3] (fun _ => 2) [1] 2 (by decide)⟩

/-- C4: the greedy selection never re-selects a node already in its
selection (the scan skips selected nodes, so any returned candidate is
fresh), and the covered set is monotonically non-decreasing across the
iterations of the loop. -/
theorem claim_C4 :
    (∀ (nodes : List Int) (gain : Int → Nat) (sel : List Int) (b : Int),
        bestNode nodes gain sel = some b → b ∉ sel) ∧
    (∀ (nodes : List Int) (coverage : Int → Finset Int) (allN : Finset Int)
        (fuel : Nat) (sel : List Int) (cov : Finset Int),
        cov ⊆ (greedyLoop nodes coverage allN fuel sel cov).2) :=
  ⟨fun _ _ _ _ h => (bestNode_fresh h).2,
    fun nodes coverage allN fuel sel cov =>
      greedyLoop_covered_mono nodes coverage allN fuel sel cov⟩

/-- C4 witness: a concrete scan returns the fresh node 2, and a concrete
run of the loop only enlarges the covered set. -/
theorem claim_C4_witness :
    bestNode [1, 2] (fun _ => 1) [1] = some 2 ∧ (2 : Int) ∉ [(1 : Int)] ∧
    ({1} : Finset Int) ⊆
      (greedyLoop [1, 2] (fun _ => {1, 2}) {1, 2} 2 [] {1}).2 :=
  ⟨by decide, claim_C4.1 [1, 2] (fun _ => 1) [1] 2 (by decide),
    claim_C4.2 [1, 2] (fun _ => {1, 2}) {1, 2} 2 [] {1}⟩

/-- C10: for every finite graph and radius at least 0, the greedy loop
reaches full coverage within `|nodes|` iterations (each iteration covers at
least one new node), and the early-exit branch is never taken: whenever the
loop condition still holds — covered sets reachable from the start satisfy
`selected ⊆ covered ⊆ all_nodes` — the candidate scan cannot return
`None`, even on disconnected graphs, because every node covers itself. -/
theorem claim_C10 (G : Graph) (radius : ℚ) (h : 0 ≤ radius) :
    (greedyLoop G.nodesList (compute_coverage G radius) G.nodesList.toFinset
        G.nodesList.length [] ∅).2 = G.nodesList.toFinset ∧
    ∀ (sel : List Int) (cov : Finset Int), (∀ x ∈ sel, x ∈ cov) →
      cov ⊆ G.nodesList.toFinset → cov ≠ G.nodesList.toFinset →
      bestNode G.nodesList (gainOf (compute_coverage G radius) cov) sel ≠ none := by
  constructor
  · apply greedyLoop_covers
    · exact fun v hv => self_mem_coverage h hv
    · exact fun v x hx => List.mem_toFinset.2 (coverage_subset hx)
    · intro x hx
      cases hx
    · exact Finset.empty_subset _
    · simpa using List.toFinset_card_le G.nodesList
  · intro sel cov hsel hcov hne hc
    rw [bestNode_none_iff] at hc
    obtain ⟨w, hwu, _, _⟩ := exists_uncovered_unsel hsel hcov hne
    rw [hc] at hwu
    cases hwu

/-- C10 witness: on a concrete two-node graph with radius 3 the loop run
with fuel `|nodes|` ends with everything covered. -/
theorem claim_C10_witness :
    (0 : ℚ) ≤ 3 ∧
    (greedyLoop (Graph.mk [1, 2] [⟨1, 2, 3, true⟩]).nodesList
        (compute_coverage (Graph.mk [1, 2] [⟨1, 2, 3, true⟩]) 3)
        (Graph.mk [1, 2] [⟨1, 2, 3, true⟩]).nodesList.toFinset
        (Graph.mk [1, 2] [⟨1, 2, 3, true⟩]).nodesList.length [] ∅).2
      = (Graph.mk [1, 2] [⟨1, 2, 3, true⟩]).nodesList.toFinset :=
  ⟨by norm_num, (claim_C10 (Graph.mk [1, 2] [⟨1, 2, 3, true⟩]) 3 (by norm_num)).1⟩

/-! ### Decimal rendering round-trip -/

theorem digitChar_digit {d : Nat} (h : d < 10) : (digitChar d).isDigit = true := by
  interval_cases d <;> decide

theorem digitVal_digitChar {d : Nat} (h : d < 10) : digitVal (digitChar d) = d := by
  interval_cases d <;> decide

theorem natReprAux_spec : ∀ (fuel n : Nat), n < fuel →
    natReprAux fuel n ≠ [] ∧ (∀ c ∈ natReprAux fuel n, c.isDigit = true) ∧
    (natReprAux fuel n).foldl (fun acc c => acc * 10 + digitVal c) 0 = n
  | 0, n, h => absurd h (by omega)
  | fuel + 1, n, h => by
    unfold natReprAux
    by_cases h10 : n < 10
    · rw [if_pos h10]
      refine ⟨by simp, ?_, ?_⟩
      · intro c hc
        rw [List.mem_singleton.1 hc]
        exact digitChar_digit h10
      · simp only [List.foldl_cons, List.foldl_nil, Nat.zero_mul, Nat.zero_add]
        exact digitVal_digitChar h10
    · rw [if_neg h10]
      have hrec : n / 10 < fuel := by omega
      obtain ⟨ih1, ih2, ih3⟩ := natReprAux_spec fuel (n / 10) hrec
      refine ⟨by simp, ?_, ?_⟩
      · intro c hc
        rcases List.mem_append.1 hc with h1 | h1
        · exact ih2 c h1
        · rw [List.mem_singleton.1 h1]
          exact digitChar_digit (Nat.mod_lt n (by omega))
      · rw [List.foldl_append, ih3]
        simp only [List.foldl_cons, List.foldl_nil]
        rw [digitVal_digitChar (Nat.mod_lt n (by omega))]
        omega

theorem natRepr_ne_nil (n : Nat) : natRepr n ≠ [] :=
  (natReprAux_spec (n + 1) n (by omega)).1

theorem natRepr_digits (n : Nat) : ∀ c ∈ natRepr n, c.isDigit = true :=
  (natReprAux_spec (n + 1) n (by omega)).2.1

theorem digitsVal_natRepr (n : Nat) : digitsVal (natRepr n) = some n := by
  unfold digitsVal
  rw [if_pos ⟨natRepr_ne_nil n, List.all_eq_true.2 (natRepr_digits n)⟩]
  unfold natRepr
  rw [(natReprAux_spec (n + 1) n (by omega)).2.2]

theorem digit_not_ws {c : Char} (h : c.isDigit = true) : isWS c = false := by
  unfold isWS
  refine decide_eq_false ?_
  rintro (rfl | rfl | rfl | rfl) <;> exact absurd h (by decide)

theorem digit_ne_comma {c : Char} (h : c.isDigit = true) : c ≠ ',' := by
  rintro rfl
  exact absurd h (by decide)

theorem digit_ne_minus {c : Char} (h : c.isDigit = true) : c ≠ '-' := by
  rintro rfl
  exact absurd h (by decide)

theorem digit_ne_plus {c : Char} (h : c.isDigit = true) : c ≠ '+' := by
  rintro rfl
  exact absurd h (by decide)

/-- Characters an `intRepr` rendering can contain. -/
theorem intRepr_chars {i : Int} : ∀ c ∈ intRepr i, c.isDigit = true ∨ c = '-' := by
  intro c hc
  unfold intRepr at hc
  split at hc
  · rcases List.mem_cons.1 hc with rfl | h1
    · exact Or.inr rfl
    · exact Or.inl (natRepr_digits _ c h1)
  · exact Or.inl (natRepr_digits _ c hc)

theorem intRepr_ne_nil (i : Int) : intRepr i ≠ [] := by
  unfold intRepr
  split
  · simp
  · exact natRepr_ne_nil _

theorem intRepr_not_ws {i : Int} : ∀ c ∈ intRepr i, isWS c = false := by
  intro c hc
  rcases intRepr_chars c hc with h | rfl
  · exact digit_not_ws h
  · decide

theorem intRepr_ne_comma {i : Int} : ∀ c ∈ intRepr i, c ≠ ',' := by
  intro c hc
  rcases intRepr_chars c hc with h | rfl
  · exact digit_ne_comma h
  · decide

/-! ### Trimming facts -/

theorem trimL_eq_self {l : PyStr} (h : ∀ c ∈ l, isWS c = false) : trimL l = l := by
  cases l with
  | nil => rfl
  | cons c rest =>
    unfold trimL
    rw [List.dropWhile_cons, if_neg (by rw [h c (List.mem_cons_self c rest)]; simp)]

theorem trim_eq_self_of_all {l : PyStr} (h : ∀ c ∈ l, isWS c = false) :
    trimChars l = l := by
  unfold trimChars trimR
  rw [trimL_eq_self (fun c hc => h c (List.mem_reverse.1 hc)), List.reverse_reverse,
    trimL_eq_self h]

theorem trimL_cons_of_not_ws {c : Char} {l : PyStr} (h : isWS c = false) :
    trimL (c :: l) = c :: l := by
  unfold trimL
  rw [List.dropWhile_cons, if_neg (by rw [h]; simp)]

theorem trimR_append_nl (l : PyStr) : trimR (l ++ ['\n']) = trimR l := by
  unfold trimR
  rw [List.reverse_append]
  simp only [List.reverse_singleton, List.singleton_append]
  rw [trimL, List.dropWhile_cons, if_pos (by decide)]
  rfl

theorem trimR_concat_of_not_ws {l : PyStr} {c : Char} (h : isWS c = false) :
    trimR (l ++ [c]) = l ++ [c] := by
  unfold trimR
  rw [List.reverse_append, List.reverse_singleton, List.singleton_append,
    trimL_cons_of_not_ws h, List.reverse_cons, List.reverse_reverse]

theorem pyParseInt_natRepr (n : Nat) : pyParseInt (natRepr n) = some (n : Int) := by
  unfold pyParseInt
  rw [trim_eq_self_of_all (fun c hc => digit_not_ws (natRepr_digits n c hc))]
  obtain ⟨c, cs, hc⟩ : ∃ c cs, natRepr n = c :: cs := by
    cases h : natRepr n with
    | nil => exact absurd h (natRepr_ne_nil n)
    | cons c cs => exact ⟨c, cs, rfl⟩
  have hcd : c.isDigit = true := natRepr_digits n c (hc ▸ List.mem_cons_self c cs)
  rw [hc]
  show (if c = '-' then (digitsVal cs).map (fun m => -(m : Int))
      else if c = '+' then (digitsVal cs).map (fun m => (m : Int))
      else (digitsVal (c :: cs)).map (fun m => (m : Int))) = some (n : Int)
  rw [if_neg (digit_ne_minus hcd), if_neg (digit_ne_plus hcd), ← hc, digitsVal_natRepr]
  rfl

theorem pyParseInt_intRepr (i : Int) : pyParseInt (intRepr i) = some i := by
  unfold intRepr
  split
  · rename_i hneg
    unfold pyParseInt
    rw [trim_eq_self_of_all ?hws]
    case hws =>
      intro c hc
      rcases List.mem_cons.1 hc with rfl | h1
      · decide
      · exact digit_not_ws (natRepr_digits _ c h1)
    show (if '-' = '-' then (digitsVal (natRepr i.natAbs)).map (fun m => -(m : Int))
        else if '-' = '+' then (digitsVal (natRepr i.natAbs)).map (fun m => (m : Int))
        else (digitsVal ('-' :: natRepr i.natAbs)).map (fun m => (m : Int))) = some i
    rw [if_pos rfl, digitsVal_natRepr]
    have h2 : -((i.natAbs : Nat) : Int) = i := by omega
    simp [h2]
    rw [abs_of_nonpos (le_of_lt hneg), neg_neg]
  · rename_i hpos
    rw [pyParseInt_natRepr i.toNat]
    have h2 : ((i.toNat : Nat) : Int) = i := by omega
    rw [h2]

/-! ### Splitting joined lists back apart -/

theorem splitChar_append_of_no_sep {sep : Char} :
    ∀ (x l : PyStr), (∀ c ∈ x, c ≠ sep) →
      ∀ h t, splitChar sep l = h :: t → splitChar sep (x ++ l) = (x ++ h) :: t
  | [], l, _, h, t, hl => by simpa using hl
  | c :: x', l, hx, h, t, hl => by
    have ih := splitChar_append_of_no_sep x' l
      (fun a ha => hx a (List.mem_cons_of_mem c ha)) h t hl
    show splitChar sep (c :: (x' ++ l)) = ((c :: x') ++ h) :: t
    simp only [splitChar, ih, if_neg (hx c (List.mem_cons_self c x')), List.cons_append]

theorem splitChar_no_sep {sep : Char} (x : PyStr) (hx : ∀ c ∈ x, c ≠ sep) :
    splitChar sep x = [x] := by
  simpa using splitChar_append_of_no_sep x [] hx [] [] rfl

theorem splitChar_join {sep : Char} :
    ∀ (parts : List PyStr), parts ≠ [] → (∀ p ∈ parts, ∀ c ∈ p, c ≠ sep) →
      splitChar sep (myIntercalate [sep] parts) = parts
  | [], hne, _ => absurd rfl hne
  | [x], _, hp => by
    unfold myIntercalate
    exact splitChar_no_sep x (hp x (List.mem_singleton_self x))
  | x :: y :: rest, _, hp => by
    have ih := splitChar_join (y :: rest) (by simp)
      (fun p hm => hp p (List.mem_cons_of_mem x hm))
    have hsplit : splitChar sep ([sep] ++ myIntercalate [sep] (y :: rest))
        = [] :: y :: rest := by
      show splitChar sep (sep :: myIntercalate [sep] (y :: rest)) = [] :: y :: rest
      simp [splitChar, ih]
    have hall := splitChar_append_of_no_sep x ([sep] ++ myIntercalate [sep] (y :: rest))
      (hp x (List.mem_cons_self x (y :: rest))) [] (y :: rest) hsplit
    show splitChar sep (x ++ [sep] ++ myIntercalate [sep] (y :: rest)) = x :: y :: rest
    rw [List.append_assoc, hall]
    simp

theorem mem_myIntercalate {sep : PyStr} :
    ∀ {parts : List PyStr} {c : Char}, c ∈ myIntercalate sep parts →
      c ∈ sep ∨ ∃ p ∈ parts, c ∈ p := by
  intro parts
  induction parts with
  | nil =>
    intro c h
    cases h
  | cons x rest ih =>
    intro c h
    cases rest with
    | nil =>
      exact Or.inr ⟨x, List.mem_singleton_self x, h⟩
    | cons y rest2 =>
      show _
      rw [myIntercalate] at h
      rcases List.mem_append.1 h with h1 | h2
      · rcases List.mem_append.1 h1 with h3 | h3
        · exact Or.inr ⟨x, List.mem_cons_self x (y :: rest2), h3⟩
        · exact Or.inl h3
      · rcases ih h2 with h3 | ⟨p, hp1, hp2⟩
        · exact Or.inl h3
        · exact Or.inr ⟨p, List.mem_cons_of_mem x hp1, hp2⟩

theorem myIntercalate_ne_nil {sep : PyStr} {p : PyStr} {rest : List PyStr}
    (hp : p ≠ []) : myIntercalate sep (p :: rest) ≠ [] := by
  cases rest with
  | nil => simpa [myIntercalate] using hp
  | cons y rest2 =>
    rw [myIntercalate]
    simp [hp]

theorem mapM_parse_intRepr : ∀ ds : List Int,
    (ds.map intRepr).mapM (fun x => pyParseInt (trimChars x)) = some ds
  | [] => rfl
  | d :: ds => by
    simp only [List.map_cons, List.mapM_cons]
    rw [trim_eq_self_of_all intRepr_not_ws, pyParseInt_intRepr, mapM_parse_intRepr ds]
    rfl

/-! ### Lines that can never parse as edge lines -/

theorem splitChar_ne_nil (sep : Char) : ∀ l : PyStr, splitChar sep l ≠ []
  | [] => by simp [splitChar]
  | c :: rest => by
    unfold splitChar
    cases h : splitChar sep rest with
    | nil => simp
    | cons a t =>
      simp only [h]
      split <;> simp

theorem dropWhile_append_last {p : Char → Bool} :
    ∀ (m : PyStr) {c : Char}, p c = false →
      ∃ m2, (m ++ [c]).dropWhile p = m2 ++ [c]
  | [], c, h => ⟨[], by simp [List.dropWhile_cons, h]⟩
  | a :: m', c, h => by
    by_cases ha : p a = true
    · obtain ⟨m2, hm⟩ := dropWhile_append_last m' h
      exact ⟨m2, by simp [List.dropWhile_cons, ha, hm]⟩
    · exact ⟨a :: m', by simp [List.dropWhile_cons, ha]⟩

theorem stripParens_head {c : Char} (hc : c ≠ '(') :
    ∀ xs, ∃ ys, stripParens (c :: xs) = c :: ys := by
  intro xs
  have hcb2 : (fun a => decide (a = '(')) c = false := by
    simpa using decide_eq_false hc
  have h1 : (c :: xs).dropWhile (fun a => decide (a = '(')) = c :: xs := by
    rw [List.dropWhile_cons, if_neg (by rw [decide_eq_false hc]; exact Bool.false_ne_true)]
  obtain ⟨m2, hm⟩ := @dropWhile_append_last (fun a => decide (a = '(')) xs.reverse c hcb2
  refine ⟨m2.reverse, ?_⟩
  unfold stripParens
  rw [h1, List.reverse_cons, hm, List.reverse_append, List.reverse_singleton,
    List.singleton_append]

theorem trimChars_head {c : Char} (hc : isWS c = false) (xs : PyStr) :
    ∃ ys, trimChars (c :: xs) = c :: ys := by
  obtain ⟨m2, hm⟩ := dropWhile_append_last xs.reverse hc
  refine ⟨m2.reverse, ?_⟩
  unfold trimChars trimR trimL
  rw [List.reverse_cons, hm, List.reverse_append, List.reverse_singleton,
    List.singleton_append, List.dropWhile_cons,
    if_neg (by rw [hc]; exact Bool.false_ne_true)]

theorem digitsVal_cons_nondigit {c : Char} (h : c.isDigit = false) (l : PyStr) :
    digitsVal (c :: l) = none := by
  have hno : ¬(c :: l ≠ [] ∧ (c :: l).all Char.isDigit = true) := by
    rintro ⟨-, hall⟩
    rw [List.all_cons, h] at hall
    exact absurd hall (by simp)
  unfold digitsVal
  rw [if_neg hno]

theorem pyParseInt_head_N (xs : PyStr) : pyParseInt ('N' :: xs) = none := by
  unfold pyParseInt
  obtain ⟨ys, hy⟩ := trimChars_head (show isWS 'N' = false by decide) xs
  rw [hy]
  show (if 'N' = '-' then (digitsVal ys).map (fun n => -(n : Int))
      else if 'N' = '+' then (digitsVal ys).map (fun n => (n : Int))
      else (digitsVal ('N' :: ys)).map (fun n => (n : Int))) = none
  rw [if_neg (by decide), if_neg (by decide), digitsVal_cons_nondigit (by decide)]
  rfl

theorem splitChar_cons_ne {sep c : Char} (l : PyStr) (h : c ≠ sep) :
    ∃ h1 t, splitChar sep (c :: l) = (c :: h1) :: t := by
  cases hr : splitChar sep l with
  | nil => exact absurd hr (splitChar_ne_nil sep l)
  | cons a t =>
    refine ⟨a, t, ?_⟩
    unfold splitChar
    simp only [hr]
    rw [if_neg h]

theorem parseEdgeUV_head_N (xs : PyStr) : parseEdgeUV ('N' :: xs) = none := by
  unfold parseEdgeUV
  split
  · rename_i a b heq
    obtain ⟨ys, hsp⟩ := stripParens_head (show ('N' : Char) ≠ '(' by decide) xs
    obtain ⟨h1, t, hc⟩ := splitChar_cons_ne ys (show ('N' : Char) ≠ ',' by decide)
    rw [hsp, hc] at heq
    injection heq with ha ht
    split
    · rename_i u v hu hv
      rw [← ha, pyParseInt_head_N] at hu
      cases hu
    · rfl
  · rfl

theorem splitSeqOnce_cons_step {sep : PyStr} {c : Char} {r : PyStr}
    (h : pfx sep (c :: r) = false) :
    splitSeqOnce sep (c :: r)
      = (splitSeqOnceAux sep r.length r).map (fun p => (c :: p.1, p.2)) := by
  show splitSeqOnceAux sep (c :: r).length (c :: r) = _
  rw [List.length_cons]
  simp only [splitSeqOnceAux]
  rw [if_neg (by rw [h]; exact Bool.false_ne_true)]

theorem parseEdgeLine_head_N (r : PyStr) : parseEdgeLine ('N' :: r) = none := by
  unfold parseEdgeLine
  split
  · rfl
  · rename_i uv rest heq
    have hstep := @splitSeqOnce_cons_step (") ".data) 'N' r rfl
    rw [hstep] at heq
    cases ha : splitSeqOnceAux (") ".data) r.length r with
    | none =>
      rw [ha] at heq
      cases heq
    | some q =>
      rw [ha, Option.map_some'] at heq
      injection heq with hq
      have huv : uv = 'N' :: q.1 := (congrArg Prod.fst hq).symm
      split
      · rfl
      · rename_i u v hpe
        rw [huv, parseEdgeUV_head_N] at hpe
        cases hpe

/-! ### Dispatch of the dropped and appended lines -/

theorem classify_of_depot {sec : Option SecTag} {l : PyStr}
    (h : pfx kwDepot (trimChars l) = true) :
    (∃ ds, classify sec l = .setDepots ds ∧ parseDepotList (trimChars l) = some ds) ∨
      (classify sec l = .fail .badDepotList ∧ parseDepotList (trimChars l) = none) := by
  have htne : trimChars l ≠ [] := by
    intro he
    rw [he] at h
    exact absurd h (by decide)
  have h1 : pfx kwNAME (trimChars l) = false := pfx_excl h (by decide) (by decide)
  have h2 : pfx kwNumVertices (trimChars l) = false := pfx_excl h (by decide) (by decide)
  have h3 : pfx kwCapacity (trimChars l) = false := pfx_excl h (by decide) (by decide)
  have h4 : pfx kwListReq (trimChars l) = false := pfx_excl h (by decide) (by decide)
  have h5 : pfx kwListNonReq (trimChars l) = false := pfx_excl h (by decide) (by decide)
  have h6 : pfx kwFailure (trimChars l) = false := pfx_excl h (by decide) (by decide)
  unfold classify classifyT
  simp only [htne, h1, h2, h3, h4, h5, h6, h, Bool.false_eq_true, if_false, if_true,
    ite_false, ite_true]
  rcases hd : parseDepotList (trimChars l) with _ | ds
  · simp [hd]
  · simp only [hd]
    exact Or.inl ⟨ds, rfl, rfl⟩

theorem classify_of_numveh {sec : Option SecTag} {l : PyStr}
    (h : pfx kwNumVehicles (trimChars l) = true) :
    classify sec l = (if sec = some SecTag.required ∨ sec = some SecTag.nonrequired
      then LineAct.fail ParseErr.badEdgeLine else LineAct.skip) := by
  have htne : trimChars l ≠ [] := by
    intro he
    rw [he] at h
    exact absurd h (by decide)
  have h1 : pfx kwNAME (trimChars l) = false := pfx_excl h (by decide) (by decide)
  have h2 : pfx kwNumVertices (trimChars l) = false := pfx_excl h (by decide) (by decide)
  have h3 : pfx kwCapacity (trimChars l) = false := pfx_excl h (by decide) (by decide)
  have h4 : pfx kwListReq (trimChars l) = false := pfx_excl h (by decide) (by decide)
  have h5 : pfx kwListNonReq (trimChars l) = false := pfx_excl h (by decide) (by decide)
  have h6 : pfx kwFailure (trimChars l) = false := pfx_excl h (by decide) (by decide)
  have h7 : pfx kwDepot (trimChars l) = false := pfx_excl h (by decide) (by decide)
  obtain ⟨r2, hr2⟩ := (pfx_exists kwNumVehicles (trimChars l)).1 h
  have hN : parseEdgeLine (trimChars l) = none := by
    rw [hr2]
    show parseEdgeLine ('N' :: (("UMBER OF VEHICLES".data) ++ r2)) = none
    exact parseEdgeLine_head_N _
  unfold classify classifyT
  simp only [htne, h1, h2, h3, h4, h5, h6, h7, h, Bool.false_eq_true, if_false, if_true,
    ite_false, ite_true]
  by_cases hsec : sec = some SecTag.required ∨ sec = some SecTag.nonrequired
  · rw [if_pos hsec, if_pos hsec, hN]
  · rw [if_neg hsec, if_neg hsec]

theorem parseLine_removed {s t1 : ParseState} {l : PyStr}
    (hk : keepLine l = false) (h : parseLine s l = .ok t1) : stRel t1 s := by
  have hor : pfx kwDepot (trimChars l) = true ∨ pfx kwNumVehicles (trimChars l) = true := by
    by_cases h1 : pfx kwDepot (trimChars l) = true
    · exact Or.inl h1
    · refine Or.inr ?_
      unfold keepLine at hk
      rw [Bool.not_eq_true] at h1
      rw [h1] at hk
      simpa using hk
  rcases hor with hD | hV
  · rcases classify_of_depot hD with ⟨ds, hc, _⟩ | ⟨hc, _⟩
    · unfold parseLine at h
      rw [hc] at h
      simp only [applyAct, Except.ok.injEq] at h
      rw [← h]
      exact ⟨rfl, rfl, rfl⟩
    · unfold parseLine at h
      rw [hc] at h
      simp only [applyAct] at h
      exact Except.noConfusion h
  · have hc := @classify_of_numveh s.sec l hV
    unfold parseLine at h
    rw [hc] at h
    split at h
    · simp only [applyAct] at h
      exact Except.noConfusion h
    · simp only [applyAct, Except.ok.injEq] at h
      rw [← h]
      exact ⟨rfl, rfl, rfl⟩

/-! ### Relating the two parses of the round-trip -/

theorem applyAct_rel {s1 s2 t1 : ParseState} (hr : stRel s1 s2) {a : LineAct}
    (h : applyAct s1 a = .ok t1) : ∃ t2, applyAct s2 a = .ok t2 ∧ stRel t1 t2 := by
  obtain ⟨hg, hb, hs⟩ := hr
  cases a with
  | skip =>
    simp only [applyAct, Except.ok.injEq] at h
    exact ⟨s2, rfl, by rw [← h]; exact ⟨hg, hb, hs⟩⟩
  | addNodes n =>
    simp only [applyAct, Except.ok.injEq] at h
    refine ⟨_, rfl, ?_⟩
    rw [← h]
    exact ⟨by simp [hg], hb, hs⟩
  | setCap q =>
    simp only [applyAct, Except.ok.injEq] at h
    refine ⟨_, rfl, ?_⟩
    rw [← h]
    exact ⟨hg, by simp, hs⟩
  | setSec t =>
    simp only [applyAct, Except.ok.injEq] at h
    refine ⟨_, rfl, ?_⟩
    rw [← h]
    exact ⟨hg, hb, by simp⟩
  | setDepots ds =>
    simp only [applyAct, Except.ok.injEq] at h
    refine ⟨_, rfl, ?_⟩
    rw [← h]
    exact ⟨hg, hb, hs⟩
  | addE u v w req =>
    simp only [applyAct, Except.ok.injEq] at h
    refine ⟨_, rfl, ?_⟩
    rw [← h]
    exact ⟨by simp [hg], hb, hs⟩
  | fail e =>
    simp only [applyAct] at h
    exact Except.noConfusion h

theorem parseLine_rel {s1 s2 t1 : ParseState} (hr : stRel s1 s2) {l : PyStr}
    (h : parseLine s1 l = .ok t1) : ∃ t2, parseLine s2 l = .ok t2 ∧ stRel t1 t2 := by
  unfold parseLine at h ⊢
  rw [← hr.2.2]
  exact applyAct_rel hr h

theorem parseLines_rel : ∀ (lines : List PyStr) {s1 s2 t1 : ParseState},
    stRel s1 s2 → parseLines s1 lines = .ok t1 →
    ∃ t2, parseLines s2 (lines.filter keepLine) = .ok t2 ∧ stRel t1 t2
  | [], s1, s2, t1, hr, h => by
    simp only [parseLines, Except.ok.injEq] at h
    exact ⟨s2, by simp [parseLines], by rw [← h]; exact hr⟩
  | l :: rest, s1, s2, t1, hr, h => by
    simp only [parseLines] at h
    cases hl : parseLine s1 l with
    | error e =>
      rw [hl] at h
      cases h
    | ok u1 =>
      rw [hl] at h
      by_cases hk : keepLine l = true
      · obtain ⟨u2, hu2, hru⟩ := parseLine_rel hr hl
        obtain ⟨t2, ht2, hrt⟩ := parseLines_rel rest hru h
        refine ⟨t2, ?_, hrt⟩
        rw [List.filter_cons_of_pos hk]
        simp only [parseLines, hu2]
        exact ht2
      · have hk2 : keepLine l = false := by
          rw [Bool.not_eq_true] at hk
          exact hk
        have hrel1 : stRel u1 s1 := parseLine_removed hk2 hl
        have hrel2 : stRel u1 s2 :=
          ⟨hrel1.1.trans hr.1, hrel1.2.1.trans hr.2.1, hrel1.2.2.trans hr.2.2⟩
        obtain ⟨t2, ht2, hrt⟩ := parseLines_rel rest hrel2 h
        refine ⟨t2, ?_, hrt⟩
        rw [List.filter_cons_of_neg (by rw [hk2]; exact Bool.false_ne_true)]
        exact ht2

theorem parseLines_append : ∀ (a b : List PyStr) (s : ParseState),
    parseLines s (a ++ b) = (match parseLines s a with
      | .ok u => parseLines u b
      | .error e => .error e)
  | [], b, s => rfl
  | l :: rest, b, s => by
    simp only [List.cons_append, parseLines]
    cases hl : parseLine s l with
    | ok u => exact parseLines_append rest b u
    | error e => rfl

/-! ### The two appended lines parse back -/

theorem splitCharOnce_cons_ne {sep c : Char} (h : c ≠ sep) (l : PyStr) :
    splitCharOnce sep (c :: l) = (splitCharOnce sep l).map (fun p => (c :: p.1, p.2)) := by
  show (if c = sep then some (([] : PyStr), l)
    else (splitCharOnce sep l).map (fun p => (c :: p.1, p.2))) = _
  rw [if_neg h]

theorem splitCharOnce_cons_eq {sep : Char} (l : PyStr) :
    splitCharOnce sep (sep :: l) = some ([], l) := by
  show (if sep = sep then some (([] : PyStr), l)
    else (splitCharOnce sep l).map (fun p => (sep :: p.1, p.2))) = _
  rw [if_pos rfl]

theorem trim_vehicleLine (k : Nat) :
    trimChars (vehicleLine k) = kwNumVehicles ++ ((": ".data) ++ natRepr k) := by
  obtain ⟨ys, c, hy⟩ : ∃ ys c, natRepr k = ys ++ [c] := by
    rcases List.eq_nil_or_concat (natRepr k) with h | ⟨ys, c, h⟩
    · exact absurd h (natRepr_ne_nil k)
    · exact ⟨ys, c, by rw [h, List.concat_eq_append]⟩
  have hcd : c.isDigit = true := natRepr_digits k c (by rw [hy]; simp)
  unfold vehicleLine trimChars
  rw [← List.append_assoc, trimR_append_nl, hy, ← List.append_assoc,
    trimR_concat_of_not_ws (digit_not_ws hcd), List.append_assoc, ← hy]
  show trimL ('N' :: (("UMBER OF VEHICLES: ".data) ++ natRepr k)) = _
  rw [trimL_cons_of_not_ws (by decide)]
  rfl

theorem parseLine_vehicleLine {t : ParseState} (k : Nat)
    (hsec : ¬(t.sec = some SecTag.required ∨ t.sec = some SecTag.nonrequired)) :
    parseLine t (vehicleLine k) = .ok t := by
  have hp : pfx kwNumVehicles (trimChars (vehicleLine k)) = true := by
    rw [trim_vehicleLine]
    exact pfx_append_self _ _
  have hc := @classify_of_numveh t.sec (vehicleLine k) hp
  rw [if_neg hsec] at hc
  unfold parseLine
  rw [hc]
  rfl

theorem depotJoin_not_ws {ds : List Int} :
    ∀ c ∈ myIntercalate [','] (ds.map intRepr), isWS c = false := by
  intro c hc
  rcases mem_myIntercalate hc with hsep | ⟨p, hp, hcp⟩
  · rcases List.mem_singleton.1 hsep with rfl
    decide
  · obtain ⟨i, _, rfl⟩ := List.mem_map.1 hp
    exact intRepr_not_ws c hcp

theorem trim_depotLine {ds : List Int} (hne : ds ≠ []) :
    trimChars (depotLine ds) = kwDepot ++ (' ' :: myIntercalate [','] (ds.map intRepr)) := by
  obtain ⟨d, rest, rfl⟩ : ∃ d rest, ds = d :: rest := by
    cases ds with
    | nil => exact absurd rfl hne
    | cons d rest => exact ⟨d, rest, rfl⟩
  have hJne : myIntercalate [','] ((d :: rest).map intRepr) ≠ [] := by
    rw [List.map_cons]
    exact myIntercalate_ne_nil (intRepr_ne_nil d)
  obtain ⟨ys, c, hy⟩ : ∃ ys c, myIntercalate [','] ((d :: rest).map intRepr) = ys ++ [c] := by
    rcases List.eq_nil_or_concat (myIntercalate [','] ((d :: rest).map intRepr))
      with h | ⟨ys, c, h⟩
    · exact absurd h hJne
    · exact ⟨ys, c, by rw [h, List.concat_eq_append]⟩
  have hcw : isWS c = false := depotJoin_not_ws c (by rw [hy]; simp)
  unfold depotLine trimChars
  rw [trimR_append_nl, hy, ← List.append_assoc,
    trimR_concat_of_not_ws hcw, List.append_assoc, ← hy]
  show trimL ('D' :: (("EPOT: ".data) ++ myIntercalate [','] ((d :: rest).map intRepr))) = _
  rw [trimL_cons_of_not_ws (by decide)]
  rfl

theorem parseDepot_depotLine {ds : List Int} (hne : ds ≠ []) :
    parseDepotList (trimChars (depotLine ds)) = some ds := by
  rw [trim_depotLine hne]
  obtain ⟨ys, c, hy⟩ : ∃ ys c, myIntercalate [','] (ds.map intRepr) = ys ++ [c] := by
    rcases List.eq_nil_or_concat (myIntercalate [','] (ds.map intRepr)) with h | ⟨ys, c, h⟩
    · obtain ⟨d, rest, rfl⟩ : ∃ d rest, ds = d :: rest := by
        cases ds with
        | nil => exact absurd rfl hne
        | cons d rest => exact ⟨d, rest, rfl⟩
      rw [List.map_cons] at h
      exact absurd h (myIntercalate_ne_nil (intRepr_ne_nil d))
    · exact ⟨ys, c, by rw [h, List.concat_eq_append]⟩
  show parseDepotList ('D' :: 'E' :: 'P' :: 'O' :: 'T' :: ':' ::
    (' ' :: myIntercalate [','] (ds.map intRepr))) = some ds
  unfold parseDepotList
  rw [splitCharOnce_cons_ne (by decide), splitCharOnce_cons_ne (by decide),
    splitCharOnce_cons_ne (by decide), splitCharOnce_cons_ne (by decide),
    splitCharOnce_cons_ne (by decide), splitCharOnce_cons_eq]
  simp only [Option.map_some']
  have htr : trimChars (' ' :: myIntercalate [','] (ds.map intRepr)) =
      myIntercalate [','] (ds.map intRepr) := by
    unfold trimChars
    rw [hy]
    rw [show (' ' :: (ys ++ [c])) = (' ' :: ys) ++ [c] from rfl,
      trimR_concat_of_not_ws (depotJoin_not_ws c (by rw [hy]; simp))]
    show trimL (' ' :: (ys ++ [c])) = ys ++ [c]
    unfold trimL
    rw [List.dropWhile_cons, if_pos (by decide)]
    have := trimL_eq_self (l := ys ++ [c]) (fun a ha => depotJoin_not_ws a (by rw [hy]; exact ha))
    exact this
  rw [htr, splitChar_join (ds.map intRepr)
    (by
      intro h
      exact hne (by simpa using h))
    (by
      intro p hp a ha
      obtain ⟨i, _, rfl⟩ := List.mem_map.1 hp
      exact intRepr_ne_comma a ha)]
  exact mapM_parse_intRepr ds

theorem parseLine_depotLine {t : ParseState} {ds : List Int} (hne : ds ≠ []) :
    parseLine t (depotLine ds) = .ok { t with depots := ds } := by
  have hp : pfx kwDepot (trimChars (depotLine ds)) = true := by
    rw [trim_depotLine hne]
    exact pfx_append_self _ _
  rcases @classify_of_depot t.sec (depotLine ds) hp with ⟨ds2, hc, hparse⟩ | ⟨_, hnone⟩
  · rw [parseDepot_depotLine hne] at hparse
    have hds : ds2 = ds := by
      exact (Option.some.injEq _ _ ▸ hparse).symm
    unfold parseLine
    rw [hc, hds]
    rfl
  · rw [parseDepot_depotLine hne] at hnone
    exact Option.noConfusion hnone

/-! ### The selection is nonempty on a nonempty graph -/

theorem unsel_nil (nodes : List Int) : unsel [] nodes = nodes := by
  unfold unsel
  simp

theorem select_nonempty {G : Graph} {cap : ℚ} (hne : G.nodesList ≠ []) :
    select_depots G cap ≠ [] := by
  obtain ⟨v, vs, hv⟩ : ∃ v vs, G.nodesList = v :: vs := by
    cases h : G.nodesList with
    | nil => exact absurd h hne
    | cons v vs => exact ⟨v, vs, rfl⟩
  unfold select_depots
  rw [hv]
  show (greedyLoop (v :: vs) (compute_coverage G (cap / 2)) (v :: vs).toFinset
    (vs.length + 1) [] ∅).1 ≠ []
  unfold greedyLoop
  rw [if_neg (by
    intro hc
    have hm : v ∈ (v :: vs).toFinset := by simp
    rw [← hc] at hm
    exact Finset.not_mem_empty v hm)]
  cases hb : bestNode (v :: vs) (gainOf (compute_coverage G (cap / 2)) ∅) [] with
  | none =>
    have := (bestNode_none_iff (v :: vs) (gainOf (compute_coverage G (cap / 2)) ∅) []).1 hb
    rw [unsel_nil] at this
    exact absurd this (by simp)
  | some b =>
    obtain ⟨ext, hext⟩ := greedyLoop_sel_ext (v :: vs) (compute_coverage G (cap / 2))
      (v :: vs).toFinset vs.length (addSel [] b) (∅ ∪ compute_coverage G (cap / 2) b)
    rw [hext]
    have ha : addSel [] b = [b] := by
      unfold addSel
      rw [if_neg (List.not_mem_nil b)]
      rfl
    rw [ha]
    simp

theorem insertSorted_length (x : Int) : ∀ l : List Int,
    (insertSorted x l).length = l.length + 1
  | [] => rfl
  | y :: ys => by
    unfold insertSorted
    split
    · rfl
    · simp [insertSorted_length x ys]

theorem sortInts_length : ∀ l : List Int, (sortInts l).length = l.length
  | [] => rfl
  | x :: xs => by
    unfold sortInts
    rw [insertSorted_length, sortInts_length xs, List.length_cons]

theorem sortInts_ne_nil {l : List Int} (h : l ≠ []) : sortInts l ≠ [] := by
  intro hc
  have := sortInts_length l
  rw [hc] at this
  cases l with
  | nil => exact h rfl
  | cons x xs => simp at this

/-- C1 counterexample: on the one-node scenario `linesC1` the depot
selection path of `update_all_instances` selects exactly one depot yet
writes vehicle count 1, not 2 — the single-depot rule of the claim does not
hold on the depot-selection paths. -/
theorem claim_C1_counterexample :
    updateResult linesC1 = some ([1], 1) ∧ ([(1 : Int)].length = 1) ∧ (1 : Nat) ≠ 2 := by
  refine ⟨?_, by decide, by decide⟩
  with_unfolding_all decide

/-- C1 (amended): the single-depot rule holds only in the rebalancing path:
`rebalance_required_edges` writes vehicle count 2 when the depot line has
exactly one token and the depot count otherwise; the depot-selection path
(`update_all_instances`, and `update_gdb_with_third_radius` likewise)
always writes vehicle count equal to the number of selected depots, with no
single-depot adjustment. -/
theorem claim_C1 :
    (∀ lines : List PyStr, (rebalance_required_edges lines).2.1 = 1 →
      (rebalance_required_edges lines).2.2 = 2) ∧
    (∀ lines : List PyStr, (rebalance_required_edges lines).2.1 ≠ 1 →
      (rebalance_required_edges lines).2.2 = (rebalance_required_edges lines).2.1) ∧
    (∀ (lines out : List PyStr) (ds : List Int) (k : Nat),
      update_instance lines = .ok (out, ds, k) → k = ds.length) := by
  refine ⟨fun lines h1 => ?_, fun lines h1 => ?_, fun lines out ds k h => ?_⟩
  · have h2 : depotTokenCount (rebalanceOut lines) = 1 := h1
    show vehicleCountOf (depotTokenCount (rebalanceOut lines)) = 2
    unfold vehicleCountOf
    rw [if_pos h2]
  · have h2 : depotTokenCount (rebalanceOut lines) ≠ 1 := h1
    show vehicleCountOf (depotTokenCount (rebalanceOut lines))
      = depotTokenCount (rebalanceOut lines)
    unfold vehicleCountOf
    rw [if_neg h2]
  · unfold update_instance at h
    cases hp : parse_text_file lines with
    | error e =>
      rw [hp] at h
      cases h
    | ok t =>
      obtain ⟨G, d0, cap⟩ := t
      rw [hp] at h
      simp only [Except.ok.injEq, Prod.mk.injEq] at h
      obtain ⟨_, hd, hk⟩ := h
      rw [← hk, ← hd]

/-- C1 witness: on `linesC1` the rebalancing path sees one depot token and
writes vehicle count 2, while the update path writes vehicle count equal to
its selected depot count. -/
theorem claim_C1_witness :
    (rebalance_required_edges linesC1).2.1 = 1 ∧
    (rebalance_required_edges linesC1).2.2 = 2 ∧
    (1 : Nat) = [(1 : Int)].length :=
  ⟨by decide, claim_C1.1 linesC1 (by decide),
    claim_C1.2.2 linesC1
      [("NUMBER OF VERTICES: 1".data), ("VEHICLE CAPACITY: 4".data),
        ("LIST_REQUIRED_EDGES:".data), ("LIST_NON_REQUIRED_EDGES:".data),
        ("FAILURE_SCENARIO:".data), ("NUMBER OF VEHICLES: 1\n".data),
        ("DEPOT: 1\n".data)]
      [1] 1 (by with_unfolding_all decide)⟩

/-- C6 counterexample: `linesC6` has a `VEHICLE CAPACITY` line, yet
`parse_text_file` fails (with the edge-line error on `garbage`), so the
presence of the capacity field does not guarantee a returned triple. -/
theorem claim_C6_counterexample :
    linesC6.any isCapacityLine = true ∧ parseErr linesC6 = some ParseErr.badEdgeLine := by
  constructor
  · decide
  · with_unfolding_all decide

/-- C6 (amended): when no line carries the mandatory capacity field the
parse fails with a format error; when the field is present the
capacity-missing error is never raised (though other lines may still make
the parse fail), and any successfully returned triple carries a capacity
parsed from one of the capacity lines. -/
theorem claim_C6 (lines : List PyStr) :
    ((∀ l ∈ lines, isCapacityLine l = false) → ∃ e, parse_text_file lines = .error e) ∧
    ((∃ l ∈ lines, isCapacityLine l = true) →
      parse_text_file lines ≠ .error .capacityMissing) ∧
    (∀ g d c, parse_text_file lines = .ok (g, d, c) →
      ∃ l ∈ lines, isCapacityLine l = true ∧ capValue l = some c) := by
  refine ⟨fun hno => ?_, fun hyes hcontra => ?_, fun g d c hok => ?_⟩
  · unfold parse_text_file
    cases hp : parseLines initState lines with
    | error e => exact ⟨e, by simp only [hp]⟩
    | ok s =>
      have hb : s.battery = none := parseLines_battery_of_no_cap hno hp
      exact ⟨.capacityMissing, by simp only [hp, hb]⟩
  · have hm := @parseLines_cap_present lines initState hyes
    unfold parse_text_file at hcontra
    cases hp : parseLines initState lines with
    | error e =>
      simp only [hp, Except.error.injEq] at hm hcontra
      exact hm hcontra
    | ok s =>
      simp only [hp] at hm hcontra
      cases hb : s.battery with
      | none =>
        rw [hb] at hm
        exact Bool.noConfusion hm
      | some c =>
        simp only [hb] at hcontra
        exact Except.noConfusion hcontra
  · unfold parse_text_file at hok
    cases hp : parseLines initState lines with
    | error e =>
      simp only [hp] at hok
      exact Except.noConfusion hok
    | ok s =>
      simp only [hp] at hok
      cases hb : s.battery with
      | none =>
        simp only [hb] at hok
        exact Except.noConfusion hok
      | some c2 =>
        simp only [hb, Except.ok.injEq, Prod.mk.injEq] at hok
        obtain ⟨_, _, hc⟩ := hok
        rcases parseLines_battery_origin hp (by rw [hb, hc]) with hi | hcap
        · cases hi
        · exact hcap

/-- C6 witness: `linesC6` contains a capacity line, and by the theorem the
parse cannot fail with the capacity-missing error there. -/
theorem claim_C6_witness :
    (∃ l ∈ linesC6, isCapacityLine l = true) ∧
    parse_text_file linesC6 ≠ .error .capacityMissing :=
  ⟨by decide, (claim_C6 linesC6).2.1 (by decide)⟩

/-- C9 counterexample: the parser accepts `linesC9`, whose declared vertex
count is 2, and produces a graph containing the self-loop edge `(3,3)` with
endpoint 3 outside `1..2` — the claimed invariant fails on an accepted
input. -/
theorem claim_C9_counterexample :
    parseOk linesC9 = some (⟨[1, 2, 3], [⟨3, 3, 1, true⟩]⟩, [], 10) ∧
    ¬ goodEnds 2 3 3 := by
  constructor
  · with_unfolding_all decide
  · decide

/-- C9 (amended): the parser does not itself enforce the invariant; but
every edge of a parsed graph originates in an edge line of the input, so
whenever every potential edge line of an accepted input has distinct
endpoints lying in `1..N`, every edge of the resulting graph has distinct
endpoints in `1..N` (no self-loops). -/
theorem claim_C9 (lines : List PyStr) (g : Graph) (d : List Int) (c : ℚ) (N : Int)
    (hok : parse_text_file lines = .ok (g, d, c))
    (hl : ∀ l ∈ lines, edgeLineGood N l) :
    ∀ e ∈ g.edges, goodEnds N e.u e.v := by
  unfold parse_text_file at hok
  cases hp : parseLines initState lines with
  | error e =>
    simp only [hp] at hok
    exact Except.noConfusion hok
  | ok s =>
    simp only [hp] at hok
    cases hb : s.battery with
    | none =>
      simp only [hb] at hok
      exact Except.noConfusion hok
    | some c2 =>
      simp only [hb, Except.ok.injEq, Prod.mk.injEq] at hok
      obtain ⟨hg, _, _⟩ := hok
      rw [← hg]
      exact parseLines_edges_good (fun l hx => hl l hx)
        (fun e he => absurd he (List.not_mem_nil e)) hp

/-- C9 witness: on the well-formed input `linesGood` (all edge lines inside
`1..2`, no self-loops) the parsed graph satisfies the invariant. -/
theorem claim_C9_witness :
    parse_text_file linesGood = .ok (⟨[1, 2], [⟨1, 2, 3, true⟩]⟩, [1], 6) ∧
    (∀ l ∈ linesGood, edgeLineGood 2 l) ∧
    ∀ e ∈ (Graph.mk [1, 2] [⟨1, 2, 3, true⟩]).edges, goodEnds 2 e.u e.v :=
  ⟨by with_unfolding_all decide, by with_unfolding_all decide,
    claim_C9 linesGood (⟨[1, 2], [⟨1, 2, 3, true⟩]⟩) [1] 6 2
      (by with_unfolding_all decide) (by with_unfolding_all decide)⟩

/-- C8 counterexample: `linesC8` is accepted by `parse_text_file`, yet
re-parsing the file written for it fails with an edge-line error — the
appended `NUMBER OF VEHICLES` line lands inside the still-open
`LIST_REQUIRED_EDGES` section — so the round-trip does not hold for every
accepted input, only for inputs that do not end inside an edge-list
section. -/
theorem claim_C8_counterexample :
    parse_text_file linesC8 = .ok (⟨[1, 2], [⟨1, 2, 3, true⟩]⟩, [], 6) ∧
    roundTrip linesC8 = some (.error ParseErr.badEdgeLine) := by
  with_unfolding_all decide

/-- C8: the structural round-trip through the serialization of
`update_all_instances`.  If the line loop of `parse_text_file` accepts
`lines` ending in state `s`, a capacity `c` was found, the file does not
end inside an edge-list section, and the graph has at least one node, then
the first parse returns `(s.graph, s.depots, c)`, the update step
succeeds, and re-parsing the written lines returns the very same graph and
capacity (with the newly selected, sorted depot list) — so node count,
edge count, per-edge weights and the required/non-required partition are
all preserved by parse–serialize–parse. -/
theorem claim_C8 (lines : List PyStr) (s : ParseState) (c : ℚ)
    (hok : parseLines initState lines = .ok s)
    (hcap : s.battery = some c)
    (hsec : ¬(s.sec = some SecTag.required ∨ s.sec = some SecTag.nonrequired))
    (hnodes : s.graph.nodesList ≠ []) :
    parse_text_file lines = .ok (s.graph, s.depots, c) ∧
    ∃ out, update_instance lines = .ok out ∧
      parse_text_file out.1 = .ok (s.graph, sortInts (select_depots s.graph c), c) := by
  have hfirst : parse_text_file lines = .ok (s.graph, s.depots, c) := by
    unfold parse_text_file
    simp only [hok, hcap]
  have hupd : update_instance lines = .ok
      (lines.filter keepLine ++
        [vehicleLine (select_depots s.graph c).length,
          depotLine (sortInts (select_depots s.graph c))],
        select_depots s.graph c, (select_depots s.graph c).length) := by
    unfold update_instance
    simp only [hfirst]
  obtain ⟨t2, ht2, hrel⟩ :=
    parseLines_rel lines (⟨rfl, rfl, rfl⟩ : stRel initState initState) hok
  have hsec2 : ¬(t2.sec = some SecTag.required ∨ t2.sec = some SecTag.nonrequired) := by
    rw [← hrel.2.2]
    exact hsec
  have hds : sortInts (select_depots s.graph c) ≠ [] :=
    sortInts_ne_nil (select_nonempty hnodes)
  have hv := @parseLine_vehicleLine t2 (select_depots s.graph c).length hsec2
  have hd := @parseLine_depotLine t2 (sortInts (select_depots s.graph c)) hds
  have hall : parseLines initState
      (lines.filter keepLine ++
        [vehicleLine (select_depots s.graph c).length,
          depotLine (sortInts (select_depots s.graph c))]) =
      .ok { t2 with depots := sortInts (select_depots s.graph c) } := by
    rw [parseLines_append]
    simp only [ht2]
    simp only [parseLines, hv, hd]
  have hb2 : t2.battery = some c := by
    rw [← hrel.2.1]
    exact hcap
  refine ⟨hfirst, ⟨_, hupd, ?_⟩⟩
  unfold parse_text_file
  simp only [hall]
  simp only [hb2]
  rw [← hrel.1]

/-- C8 witness: the round-trip at the concrete well-formed scenario
`linesGood`, whose first parse accepts with a capacity and a nonempty node
list, ending in the failure section. -/
theorem claim_C8_witness :
    (parseLines initState linesGood =
      .ok ⟨⟨[1, 2], [⟨1, 2, 3, true⟩]⟩, [1], some 6, some SecTag.failure⟩) ∧
    (parse_text_file linesGood = .ok ((⟨[1, 2], [⟨1, 2, 3, true⟩]⟩ : Graph), [1], 6) ∧
      ∃ out, update_instance linesGood = .ok out ∧
        parse_text_file out.1 =
          .ok ((⟨[1, 2], [⟨1, 2, 3, true⟩]⟩ : Graph),
            sortInts (select_depots ⟨[1, 2], [⟨1, 2, 3, true⟩]⟩ 6), 6)) :=
  ⟨by with_unfolding_all decide,
    claim_C8 linesGood ⟨⟨[1, 2], [⟨1, 2, 3, true⟩]⟩, [1], some 6, some SecTag.failure⟩ 6
      (by with_unfolding_all decide) rfl (by decide) (by decide)⟩

end RPP

